import Mathlib

/-!
# cheshire-golang: the strest client multiplexer

A shallow embedding of `src/cheshire/client.go` (transaction ids, the
connection event loop with its pending-transaction map, cleanup, admission
control in `sendRequest`, and the client's `reconnect`), followed by the
properties proved about it.

Conventions of the embedding

* Go channels are reference values; a channel is identified by a number
  (`Chan`).  A send on a caller's channel is recorded as an `Event` appended to
  the connection's `trace`, in program order.
* The buffered channels `outgoingChan` and `incomingChan` are FIFO lists; the
  unbuffered `exitChan` is the number of senders currently waiting on it.  A send
  on `exitChan` blocks its sender until the event loop receives it, and the loop
  receives one signal in its life: `exitPoint` and `closeReturns` say whether a
  given sender gets through.
* `map[string]*cheshireRequest` is an association list; `mapSet` overwrites,
  `mapDelete` removes every entry of the key, `mapGet` finds the entry.
* `time.Time` and `time.Duration` are integers counting nanoseconds.
* The goroutines of a connection are interleaved as a list of `Step`s.
-/

namespace Cheshire

/-! ## Data model -/

/-- Request envelope; the connection code reads only the transaction id. -/
structure Request where
  uri : String
  method : String
  txnId : String
  txnAccept : String
deriving DecidableEq, Repr

/-- Response envelope: transaction id and transaction status. -/
structure Response where
  txnId : String
  txnStatus : String
deriving DecidableEq, Repr

/-- Identity of a Go channel. -/
abbrev Chan := Nat

/-- Wrapper `cheshireRequest`: the request with the caller's two channels. -/
structure cheshireRequest where
  req : Request
  resultChan : Chan
  errorChan : Chan
deriving DecidableEq, Repr

/-- Observable effects of a connection, in program order. -/
inductive Event where
  /-- The send `req.resultChan <- response`. -/
  | result (ch : Chan) (response : Response)
  /-- The send `errorChan <- err`. -/
  | error (ch : Chan) (msg : String)
  /-- The call `writer.Write(json)` succeeded for the request. -/
  | wrote (req : Request)
  /-- The call `this.Conn.Close()`. -/
  | streamClosed
  /-- The send `this.disconnectChan <- this`. -/
  | disconnected
deriving DecidableEq, Repr

/-- The pending-transaction map `map[string]*cheshireRequest`. -/
abbrev RequestMap := List (String × cheshireRequest)

/-- Map read `m[k]` with the comma-ok form. -/
def mapGet : RequestMap → String → Option cheshireRequest
  | [], _ => none
  | (k', v) :: rest, k => if k' = k then some v else mapGet rest k

/-- Builtin `delete(m, k)`. -/
def mapDelete : RequestMap → String → RequestMap
  | [], _ => []
  | (k', v) :: rest, k => if k' = k then mapDelete rest k else (k', v) :: mapDelete rest k

/-- Map write `m[k] = v`. -/
def mapSet (m : RequestMap) (k : String) (v : cheshireRequest) : RequestMap :=
  (k, v) :: mapDelete m k

/-- A Go map holds each key once. -/
def keysNodup (m : RequestMap) : Prop := (m.map Prod.fst).Nodup

instance (m : RequestMap) : Decidable (keysNodup m) := by
  unfold keysNodup; infer_instance

/-- Connection `cheshireConn` (the fields the event loop and `sendRequest` use),
with the trace of effects performed so far. -/
structure cheshireConn where
  addr : String
  connected : Bool
  incomingChan : List Response
  outgoingChan : List cheshireRequest
  exitChan : Nat
  requests : RequestMap
  connectedAt : Int
  maxInFlight : Int
  trace : List Event
deriving DecidableEq, Repr

/-! ## cleanup -/

/-- The error built by `cleanup`: `fmt.Errorf("Connection is closed %s", this.addr)`. -/
def closedErr (addr : String) : String := "Connection is closed " ++ addr

/-- First loop of `cleanup`: `for len(this.outgoingChan) > 0`, receive a request
and send the error to its error channel. -/
def drainOutgoing (err : String) : List cheshireRequest → List Event → List Event
  | [], tr => tr
  | req :: rest, tr => drainOutgoing err rest (tr ++ [Event.error req.errorChan err])

/-- Second loop of `cleanup`: `for k, v := range this.requests`, send the error
to `v.errorChan` and `delete(this.requests, k)`.  The range visits the entries of
the map as it was at loop entry; an entry removed before it is reached is not
produced. -/
def rangeClear (err : String) : RequestMap → RequestMap × List Event → RequestMap × List Event
  | [], acc => acc
  | (k, v) :: rest, (m, tr) =>
    match mapGet m k with
    | none => rangeClear err rest (m, tr)
    | some _ => rangeClear err rest (mapDelete m k, tr ++ [Event.error v.errorChan err])

/-- Method `cheshireConn.cleanup`. -/
def cleanup (this : cheshireConn) : cheshireConn :=
  let err := closedErr this.addr
  let tr1 := drainOutgoing err this.outgoingChan (this.trace ++ [Event.streamClosed])
  let cleared := rangeClear err this.requests (this.requests, tr1)
  { this with
    outgoingChan := []
    requests := cleared.1
    trace := cleared.2 ++ [Event.disconnected] }

/-! ## eventLoop -/

/-- Which case of the `select` in `eventLoop` fires.  For the outgoing case the
two flags say whether `json.Marshal` and `writer.Write` succeed. -/
inductive Select where
  | outgoing (marshalOk writeOk : Bool)
  | incoming
  | exit
deriving DecidableEq, Repr

/-- One pass through the body of the `for this.connected` loop of `eventLoop`.
A case whose channel has nothing to receive does not fire. -/
def eventLoopBody (this : cheshireConn) : Select → cheshireConn
  | Select.outgoing marshalOk writeOk =>
    match this.outgoingChan with
    | [] => this
    | request :: rest =>
      let this1 := { this with
        outgoingChan := rest
        requests := mapSet this.requests request.req.txnId request }
      if marshalOk && writeOk then
        { this1 with trace := this1.trace ++ [Event.wrote request.req] }
      else this1
  | Select.incoming =>
    match this.incomingChan with
    | [] => this
    | response :: rest =>
      let this1 := { this with incomingChan := rest }
      match mapGet this1.requests response.txnId with
      | none => this1
      | some req =>
        let this2 := { this1 with trace := this1.trace ++ [Event.result req.resultChan response] }
        if response.txnStatus = "completed" then
          { this2 with requests := mapDelete this2.requests response.txnId }
        else this2
  | Select.exit =>
    if this.exitChan = 0 then this
    else { this with exitChan := this.exitChan - 1, connected := false }

/-- One iteration of `eventLoop`: the loop guard, the body, and the deferred
`cleanup` that runs when the guard fails after the body. -/
def eventLoopIter (this : cheshireConn) (sel : Select) : cheshireConn :=
  if this.connected then
    let next := eventLoopBody this sel
    if next.connected then next else cleanup next
  else this

/-- Method `cheshireConn.Close`, up to the moment its caller waits: on a connected
connection the caller becomes one more sender waiting on the unbuffered
`exitChan`.  The call returns at once when the connection is not connected, and
otherwise only when the event loop has received the caller's signal
(`closeReturns`). -/
def Close (this : cheshireConn) : cheshireConn :=
  if !this.connected then this
  else { this with exitChan := this.exitChan + 1 }

/-- An atomic step of one of the goroutines working on a connection. -/
inductive Step where
  /-- A caller completes `this.outgoingChan <- req` at the end of `sendRequest`. -/
  | send (r : cheshireRequest)
  /-- The listener completes `this.incomingChan <- res`. -/
  | read (res : Response)
  /-- The listener reaches its deferred `this.exitChan <- 1`. -/
  | listenerExit
  /-- Somebody calls `Close`. -/
  | close
  /-- The event loop goes through one iteration. -/
  | loop (sel : Select)
deriving DecidableEq, Repr

/-- Effect of one step on the connection. -/
def step (this : cheshireConn) : Step → cheshireConn
  | Step.send r => { this with outgoingChan := this.outgoingChan ++ [r] }
  | Step.read res => { this with incomingChan := this.incomingChan ++ [res] }
  | Step.listenerExit => { this with exitChan := this.exitChan + 1 }
  | Step.close => Close this
  | Step.loop sel => eventLoopIter this sel

/-- Effect of a sequence of steps. -/
def run (this : cheshireConn) (steps : List Step) : cheshireConn :=
  steps.foldl step this

/-! ## sendRequest -/

/-- How the admission loop of `sendRequest` ends, with the number of
`time.Sleep(1 * time.Second)` calls it made. -/
inductive Admission where
  | admitted (sleeps : Nat)
  | failed (sleeps : Nat)
deriving DecidableEq, Repr

/-- The loop `for len(this.requests) > this.maxInFlight` of `sendRequest`.
The map is mutated by the event loop while the caller sleeps, so the length read
by the guard after `k` sleeps is given by `pending k`. -/
def admissionLoop (maxInFlight : Int) (pending : Nat → Nat) (sleeps : Nat) : Admission :=
  if (pending sleeps : Int) > maxInFlight then
    if sleeps > 20 then Admission.failed sleeps
    else admissionLoop maxInFlight pending (sleeps + 1)
  else Admission.admitted sleeps
termination_by 21 - sleeps
decreasing_by omega

/-- The two values returned by `sendRequest`: `(req, nil)` or `(nil, err)`. -/
inductive SendResult where
  | ok (req : cheshireRequest)
  | err (msg : String)
deriving DecidableEq, Repr

/-- Result of a call of `sendRequest`: the connection after its last statement,
the values it returns, the number of one-second sleeps performed, and whether the
call waits in `this.Close()` on the send `this.exitChan <- 1`: it then returns
`result` only once the event loop has received that signal, and never if the loop
does not receive it (`sendRequestReturns`). -/
structure SendOutcome where
  conn : cheshireConn
  result : SendResult
  sleeps : Nat
  exitSend : Bool
deriving DecidableEq, Repr

/-- Method `cheshireConn.sendRequest`. -/
def sendRequest (this : cheshireConn) (pending : Nat → Nat) (request : Request)
    (resultChan errorChan : Chan) : SendOutcome :=
  match admissionLoop this.maxInFlight pending 0 with
  | Admission.failed n =>
    { conn := Close this
      result := SendResult.err "Max inflight sustained for more then 20 seconds, fail"
      sleeps := n
      exitSend := this.connected }
  | Admission.admitted n =>
    if !this.connected then
      { conn := this, result := SendResult.err "Not connected", sleeps := n,
        exitSend := false }
    else
      let req : cheshireRequest :=
        { req := request, resultChan := resultChan, errorChan := errorChan }
      { conn := step this (Step.send req), result := SendResult.ok req, sleeps := n,
        exitSend := false }

/-- The state in which the event loop receives an exit signal during `steps`, if
it does: the first iteration that takes the exit case while the loop runs and a
sender waits.  After it the loop has ended and receives nothing more. -/
def exitPoint : cheshireConn → List Step → Option cheshireConn
  | _, [] => none
  | s, st :: rest =>
    if st = Step.loop Select.exit ∧ s.connected = true ∧ s.exitChan ≠ 0 then some s
    else exitPoint (step s st) rest

/-- Whether the blocking send `this.exitChan <- 1` of a caller completes during
`steps`.  The caller found `ahead` senders already waiting; `pick` is the waiting
sender whose signal the receive of the event loop takes, counted in the order of
arrival.  The send completes when the loop receives a signal and it is the
caller's. -/
def closeReturns (s : cheshireConn) (ahead : Nat) (steps : List Step) (pick : Nat) : Bool :=
  match exitPoint s steps with
  | none => false
  | some _ => pick == ahead

/-- Whether a call of `sendRequest` returns, given the steps of the connection
that follow its last statement and the sender the event loop picks. -/
def sendRequestReturns (this : cheshireConn) (pending : Nat → Nat) (request : Request)
    (resultChan errorChan : Chan) (steps : List Step) (pick : Nat) : Bool :=
  if (sendRequest this pending request resultChan errorChan).exitSend then
    closeReturns (sendRequest this pending request resultChan errorChan).conn this.exitChan
      steps pick
  else true

/-- The pending count seen by every guard evaluation when nothing mutates the map
during the call. -/
def pendingOf (this : cheshireConn) : Nat → Nat := fun _ => this.requests.length

/-! ## Transaction ids -/

/-- Two's-complement wrap-around of `int64` arithmetic. -/
def wrapInt64 (x : Int) : Int :=
  (x + 9223372036854775808) % 18446744073709551616 - 9223372036854775808

/-- Function `NewTxnId` as a step on the counter `strestId`: the returned string
and the counter afterwards. -/
def NewTxnId (strestId : Int) : String × Int :=
  let id := wrapInt64 (strestId + 1)
  ("go" ++ toString id, id)

/-- The ids returned by `n` successive calls of `NewTxnId` from counter value `c`. -/
def txnIds : Nat → Int → List String
  | 0, _ => []
  | n + 1, c => (NewTxnId c).1 :: txnIds n (NewTxnId c).2

/-- The counter values left by `n` successive calls of `NewTxnId` from `c`. -/
def counters : Nat → Int → List Int
  | 0, _ => []
  | n + 1, c => (NewTxnId c).2 :: counters n (NewTxnId c).2

/-- The first statement of `doApiCall`: a request without transaction id gets a
fresh one. -/
def stampTxnId (req : Request) (strestId : Int) : Request × Int :=
  if req.txnId = "" then
    ({ req with txnId := (NewTxnId strestId).1 }, (NewTxnId strestId).2)
  else (req, strestId)

/-- Successive `doApiCall`s stamping a list of requests, from counter value `c`. -/
def stampAll : List Request → Int → List Request
  | [], _ => []
  | req :: rest, c => (stampTxnId req c).1 :: stampAll rest (stampTxnId req c).2

/-! ## The client's reconnect -/

/-- Identity of a connection object (a `*cheshireConn` pointer). -/
abbrev ConnRef := Nat

/-- Client `JsonClient`: the fields `reconnect` uses. -/
structure JsonClient where
  host : String
  port : Int
  conn : ConnRef
  isClosed : Bool
  maxInflight : Int
deriving DecidableEq, Repr

/-- What `createConn` gets from `newCheshireConn`: a new connection or an error. -/
inductive Dial where
  | ok (c : ConnRef)
  | err (msg : String)
deriving DecidableEq, Repr

/-- Result of `reconnect`: the client afterwards, the two returned values, the
state of the old connection afterwards, whether `createConn` was called, and
whether the skip branch was taken. -/
structure ReconnectOutcome where
  client : JsonClient
  conn : ConnRef
  err : Option String
  old : cheshireConn
  dialed : Bool
  skipped : Bool
deriving DecidableEq, Repr

/-- Duration `5 * time.Second` in nanoseconds. -/
def fiveSeconds : Int := 5 * 1000000000

/-- Method `JsonClient.reconnect`.  `oldconn` is the pointer passed in, `old` the
connection it points to, `now` the value of `time.Now()` and `dial` what opening
a connection yields if it is tried. -/
def reconnect (this : JsonClient) (oldconn : ConnRef) (old : cheshireConn) (now : Int)
    (dial : Dial) : ReconnectOutcome :=
  if old.connectedAt > now + fiveSeconds then
    { client := this, conn := oldconn, err := none, old := old, dialed := false, skipped := true }
  else
    let closed := Close old
    match dial with
    | Dial.err e =>
      { client := this, conn := oldconn, err := some e, old := closed, dialed := true,
        skipped := false }
    | Dial.ok con =>
      { client := { this with conn := con }, conn := con, err := none, old := closed,
        dialed := true, skipped := false }

/-! ## Predicates used in the statements -/

/-- Routing invariant of a connection relative to a set `S` of enqueued requests
and a set `G` of earlier deliveries: every pending entry sits under its own
transaction id and was enqueued, every queued request was enqueued, and every
delivery in the trace is either an earlier one or goes to the result channel of
an enqueued request with the response's transaction id. -/
def Routed (S : cheshireRequest → Prop) (G : Chan → Response → Prop) (s : cheshireConn) : Prop :=
  (∀ e ∈ s.requests, e.1 = e.2.req.txnId ∧ S e.2) ∧
  (∀ r ∈ s.outgoingChan, S r) ∧
  (∀ ch resp, Event.result ch resp ∈ s.trace →
    G ch resp ∨ ∃ r, S r ∧ r.resultChan = ch ∧ r.req.txnId = resp.txnId)

/-- Tell whether an event is a send on an error channel. -/
def isError : Event → Bool
  | Event.error _ _ => true
  | _ => false

/-- Tell whether an event is a send on a result channel. -/
def isResult : Event → Bool
  | Event.result _ _ => true
  | _ => false

/-- The events `cleanup` performs on a connection, in order. -/
def cleanupEvents (this : cheshireConn) : List Event :=
  [Event.streamClosed] ++
  this.outgoingChan.map (fun r => Event.error r.errorChan (closedErr this.addr)) ++
  this.requests.map (fun e => Event.error e.2.errorChan (closedErr this.addr)) ++
  [Event.disconnected]

/-- Value of a string of decimal digits read from the left, starting from `acc`. -/
def digitsValue (acc : Nat) (ds : List Char) : Nat :=
  ds.foldl (fun a c => a * 10 + (c.toNat - 48)) acc

/-! ## Concrete inputs -/

/-- A connection with an empty pending map, two requests on their own channels. -/
def conn0 : cheshireConn :=
  { addr := "localhost:8009", connected := true, incomingChan := [], outgoingChan := [],
    exitChan := 0, requests := [], connectedAt := 0, maxInFlight := 10, trace := [] }

/-- Request `go1` of a first caller. -/
def reqA : cheshireRequest :=
  { req := { uri := "/ping", method := "GET", txnId := "go1", txnAccept := "single" },
    resultChan := 1, errorChan := 2 }

/-- Request `go2` of a second caller. -/
def reqB : cheshireRequest :=
  { req := { uri := "/data", method := "GET", txnId := "go2", txnAccept := "multi" },
    resultChan := 3, errorChan := 4 }

/-- A run in which the two responses arrive in the opposite order of the requests. -/
def steps0 : List Step :=
  [Step.send reqA, Step.send reqB, Step.loop (Select.outgoing true true),
   Step.loop (Select.outgoing true true),
   Step.read { txnId := "go2", txnStatus := "completed" },
   Step.read { txnId := "go1", txnStatus := "completed" },
   Step.loop Select.incoming, Step.loop Select.incoming]

/-- Connection with request `go1` pending and a response of status `complete`
followed by a second response for the same id on the incoming queue. -/
def connStreaming : cheshireConn :=
  { conn0 with
    requests := [("go1", reqA)]
    incomingChan := [{ txnId := "go1", txnStatus := "complete" },
                     { txnId := "go1", txnStatus := "continue" }] }

/-- Connection at teardown with one request still queued and one pending. -/
def connTeardown : cheshireConn :=
  { conn0 with connected := false, outgoingChan := [reqB], requests := [("go1", reqA)] }

/-- Connection torn down while one transaction is still in the map: the
connected flag is false and the pending count exceeds `maxInFlight`. -/
def connDead : cheshireConn :=
  { conn0 with connected := false, maxInFlight := 0, requests := [("go1", reqA)] }

/-- Connected connection with `maxInFlight` 0 and one pending transaction. -/
def connBusy : cheshireConn :=
  { conn0 with maxInFlight := 0, requests := [("go1", reqA)] }

/-- The connection `connBusy` at the moment its listener, having read the end of
the stream, waits on its deferred send on `exitChan`. -/
def connRace : cheshireConn :=
  { conn0 with maxInFlight := 0, requests := [("go1", reqA)], exitChan := 1 }

/-- Connected connection whose pending count equals its `maxInFlight` of 1. -/
def connFull : cheshireConn :=
  { conn0 with maxInFlight := 1, requests := [("go1", reqA)] }

/-- A connection is either still connected with an exit signal waiting, or it is
torn down with an empty pending map. -/
def Closing (s : cheshireConn) : Prop :=
  (s.connected = true → 1 ≤ s.exitChan) ∧ (s.connected = false → s.requests = [])

/-- A client whose current connection is connection 7. -/
def client0 : JsonClient :=
  { host := "localhost", port := 8009, conn := 7, isClosed := false, maxInflight := 10 }

/-- One second in nanoseconds. -/
def oneSecond : Int := 1000000000

/-! ## Asynchronous and synchronous calls -/

/-- Result of `doApiCall`: the connection afterwards (its trace holds what was
sent on the caller's channels), the id counter afterwards, and the internal
request returned (nil when the call failed). -/
structure ApiCallOutcome where
  conn : cheshireConn
  strestId : Int
  request : Option cheshireRequest
deriving DecidableEq, Repr

/-- Method `JsonClient.doApiCall` on the client's current connection `conn`:
stamp a transaction id, fetch the connection (`connection()` fails when it is not
connected), call `sendRequest`; an error of either is sent on `errorChan`. -/
def doApiCall (conn : cheshireConn) (strestId : Int) (pending : Nat → Nat) (req : Request)
    (responseChan errorChan : Chan) : ApiCallOutcome :=
  let stamped := stampTxnId req strestId
  if !conn.connected then
    { conn := { conn with trace := conn.trace ++ [Event.error errorChan "Not connected"] }
      strestId := stamped.2
      request := none }
  else
    let sent := sendRequest conn pending stamped.1 responseChan errorChan
    match sent.result with
    | SendResult.err msg =>
      { conn := { sent.conn with trace := sent.conn.trace ++ [Event.error errorChan msg] }
        strestId := stamped.2
        request := none }
    | SendResult.ok r =>
      { conn := sent.conn, strestId := stamped.2, request := some r }

/-- A value arriving on one of the two channels made by `doApiCallSync`. -/
inductive Arrival where
  | response (r : Response)
  | error (err : String)
deriving DecidableEq, Repr

/-- Which case of the `select` of `doApiCallSync` fires. -/
inductive Race where
  /-- The case `response := <-responseChan`. -/
  | response (r : Response)
  /-- The case `err := <-errorChan`. -/
  | error (err : String)
  /-- The case `<-time.After(timeout)`. -/
  | timeout
deriving DecidableEq, Repr

/-- The blocking `select`: `arrivals` are the values sent to the two channels in
the order of time and `beforeTimer` says how many of them come before the timer
expires; the first of those fires its case, and with none of them the timer case
fires. -/
def firstReady (arrivals : List Arrival) (beforeTimer : Nat) : Race :=
  match arrivals.take beforeTimer with
  | [] => Race.timeout
  | Arrival.response r :: _ => Race.response r
  | Arrival.error err :: _ => Race.error err

/-- The three values returned by `doApiCallSync`. -/
structure SyncResult where
  response : Option Response
  conn : ConnRef
  err : Option String
deriving DecidableEq, Repr

/-- Method `JsonClient.doApiCallSync` after its call of `doApiCall` returned the
connection `conn`: the `select` and the three returns. -/
def doApiCallSync (conn : ConnRef) (arrivals : List Arrival) (beforeTimer : Nat) : SyncResult :=
  match firstReady arrivals beforeTimer with
  | Race.response response => { response := some response, conn := conn, err := none }
  | Race.error err => { response := none, conn := conn, err := some err }
  | Race.timeout => { response := none, conn := conn, err := some "Request timeout" }

/-- Method `JsonClient.ApiCallSync`: the response and the error of `doApiCallSync`. -/
def ApiCallSync (conn : ConnRef) (arrivals : List Arrival) (beforeTimer : Nat) :
    Option Response × Option String :=
  ((doApiCallSync conn arrivals beforeTimer).response,
   (doApiCallSync conn arrivals beforeTimer).err)

/-- The values a trace sends to a result channel and an error channel, in order. -/
def arrivalsOn (responseChan errorChan : Chan) : List Event → List Arrival
  | [] => []
  | Event.result ch r :: rest =>
    if ch = responseChan then Arrival.response r :: arrivalsOn responseChan errorChan rest
    else arrivalsOn responseChan errorChan rest
  | Event.error ch msg :: rest =>
    if ch = errorChan then Arrival.error msg :: arrivalsOn responseChan errorChan rest
    else arrivalsOn responseChan errorChan rest
  | _ :: rest => arrivalsOn responseChan errorChan rest

/-- Number of errors a trace sends to an error channel. -/
def errorsOn (errorChan : Chan) (trace : List Event) : Nat :=
  trace.countP (fun e => match e with
    | Event.error ch _ => decide (ch = errorChan)
    | _ => false)

/-- Tell whether a trace delivers to a result channel a response of status
`completed`. -/
def completedOn (responseChan : Chan) (trace : List Event) : Prop :=
  ∃ r : Response, r.txnStatus = "completed" ∧ Event.result responseChan r ∈ trace

/-- The requests sent to the outgoing queue during a list of steps. -/
def sendsOf : List Step → List cheshireRequest
  | [] => []
  | Step.send r :: rest => r :: sendsOf rest
  | _ :: rest => sendsOf rest

/-- Number of requests with a given error channel that are still to be answered:
queued, pending, or yet to be sent. -/
def waitingOn (errorChan : Chan) (s : cheshireConn) (future : List cheshireRequest) : Nat :=
  s.outgoingChan.countP (fun x => decide (x.errorChan = errorChan)) +
  (s.requests.map Prod.snd).countP (fun x => decide (x.errorChan = errorChan)) +
  future.countP (fun x => decide (x.errorChan = errorChan))

/-- The channels of a call are its own: wherever a request receives results on
`responseChan` it receives errors on `errorChan`, at most one request or error on
`errorChan` is outstanding, and after a response of status `completed` none is. -/
def OwnChannels (responseChan errorChan : Chan) (s : cheshireConn)
    (future : List cheshireRequest) : Prop :=
  (∀ x, (x ∈ s.outgoingChan ∨ x ∈ s.requests.map Prod.snd ∨ x ∈ future) →
    x.resultChan = responseChan → x.errorChan = errorChan) ∧
  waitingOn errorChan s future + errorsOn errorChan s.trace ≤ 1 ∧
  (completedOn responseChan s.trace →
    waitingOn errorChan s future + errorsOn errorChan s.trace = 0)

/-- A request without transaction id, as a caller hands it to `ApiCall`. -/
def reqStream : Request :=
  { uri := "/data", method := "GET", txnId := "", txnAccept := "multi" }

/-- The connection events after a call: the request is written, a response of
status `continue` arrives and is delivered, then the listener ends and the event
loop tears the connection down. -/
def stepsStream : List Step :=
  [Step.loop (Select.outgoing true true),
   Step.read { txnId := "go1", txnStatus := "continue" },
   Step.loop Select.incoming, Step.listenerExit, Step.loop Select.exit]

/-! ## The client's supervisory loop -/

/-- Function `newCheshireConn` when the dial succeeds (the caller, `createConn`,
then sets `maxInFlight` and starts the connection's event loop). -/
def newCheshireConn (addr : String) (now : Int) : cheshireConn :=
  { addr := addr, connected := true, incomingChan := [], outgoingChan := [], exitChan := 0,
    requests := [], connectedAt := now, maxInFlight := 0, trace := [] }

/-- A client together with the connections it has opened so far; a `ConnRef` is
the position of a connection in `conns`.  `notified` lists the connections whose
disconnect notification the supervisory loop has received. -/
structure World where
  client : JsonClient
  conns : List cheshireConn
  notified : List ConnRef
deriving DecidableEq, Repr

/-- Which case of the `select` in `JsonClient.eventLoop` fires.  For the tick case
`pingErr` says whether the ping returned an error; `now` is the time of the
reconnect and `dialOk` whether a dial succeeds at that time. -/
inductive ClientSelect where
  | exit
  | tick (pingErr : Bool) (now : Int) (dialOk : Bool)
  | disconnect (conn : ConnRef) (now : Int) (dialOk : Bool)
deriving DecidableEq, Repr

/-- The call `this.reconnect(oldconn)` in the world: `createConn` dials the
client's address, and a new connection gets the next free position. -/
def reconnectWorld (w : World) (oldconn : ConnRef) (now : Int) (dialOk : Bool) : World :=
  match w.conns.get? oldconn with
  | none => w
  | some old =>
    let dial := if dialOk then Dial.ok w.conns.length else Dial.err "dial failed"
    let out := reconnect w.client oldconn old now dial
    let conns1 := w.conns.set oldconn out.old
    let conns2 :=
      if out.dialed && dialOk then
        conns1 ++ [{ newCheshireConn (w.client.host ++ ":" ++ toString w.client.port) now with
                     maxInFlight := w.client.maxInflight }]
      else conns1
    { w with client := out.client, conns := conns2 }

/-- One pass through the body of the `for !this.isClosed` loop of
`JsonClient.eventLoop`.  The disconnect case fires only for a connection whose
`cleanup` has sent the notification and whose notification was not yet received. -/
def clientLoopBody (w : World) : ClientSelect → World
  | ClientSelect.exit =>
    match w.conns.get? w.client.conn with
    | none => { w with client := { w.client with isClosed := true } }
    | some cur =>
      { w with conns := w.conns.set w.client.conn (Close cur)
               client := { w.client with isClosed := true } }
  | ClientSelect.tick pingErr now dialOk =>
    if pingErr then reconnectWorld w w.client.conn now dialOk else w
  | ClientSelect.disconnect conn now dialOk =>
    match w.conns.get? conn with
    | none => w
    | some c =>
      if Event.disconnected ∈ c.trace ∧ conn ∉ w.notified then
        reconnectWorld { w with notified := conn :: w.notified } conn now dialOk
      else w

/-- A step of the whole program: an iteration of the client's loop, or a step of
one of the goroutines of a connection. -/
inductive WorldStep where
  | client (sel : ClientSelect)
  | conn (c : ConnRef) (st : Step)
deriving DecidableEq, Repr

/-- Effect of one step on the world. -/
def worldStep (w : World) : WorldStep → World
  | WorldStep.client sel => if w.client.isClosed then w else clientLoopBody w sel
  | WorldStep.conn c st =>
    match w.conns.get? c with
    | none => w
    | some s => { w with conns := w.conns.set c (step s st) }

/-- Effect of a sequence of steps on the world. -/
def worldRun (w : World) (steps : List WorldStep) : World :=
  steps.foldl worldStep w

/-- A connection is open when it is connected and nobody has called `Close` on it
or sent it an exit signal. -/
def isOpen (s : cheshireConn) : Bool := s.connected && s.exitChan == 0

/-- The world right after `Connect`: one connection, the current one. -/
def world0 : World :=
  { client := { host := "localhost", port := 8009, conn := 0, isClosed := false,
                maxInflight := 10 }
    conns := [conn0]
    notified := [] }

/-- A ping fails on the live connection 0 and the client reconnects; connection 0
is torn down and notifies the client, which reconnects once more. -/
def stepsStale : List WorldStep :=
  [WorldStep.client (ClientSelect.tick true (10 * oneSecond) true),
   WorldStep.conn 0 (Step.loop Select.exit),
   WorldStep.client (ClientSelect.disconnect 0 (11 * oneSecond) true)]

/-! ## The TOML reader: toVal -/

/-- The value returned by `toVal` as `interface{}`: a string or a boolean. -/
inductive Val where
  | str (s : String)
  | bool (b : Bool)
deriving DecidableEq, Repr

/-- Predicate `unicode.IsSpace`. -/
def isSpace (c : Char) : Bool :=
  let n := c.toNat
  n == 0x09 || n == 0x0A || n == 0x0B || n == 0x0C || n == 0x0D || n == 0x20 ||
  n == 0x85 || n == 0xA0 || n == 0x1680 || (0x2000 ≤ n && n ≤ 0x200A) ||
  n == 0x2028 || n == 0x2029 || n == 0x202F || n == 0x205F || n == 0x3000

/-- Function `strings.TrimFunc`: drop the leading and the trailing characters that
satisfy `f`. -/
def trimFunc (f : Char → Bool) (s : List Char) : List Char :=
  ((s.dropWhile f).reverse.dropWhile f).reverse

/-- Function `strings.TrimSpace`. -/
def TrimSpace (s : List Char) : List Char := trimFunc isSpace s

/-- Simple case folding of a character onto its lower-case ASCII letter, for the
characters whose fold orbit contains an ASCII letter (the letters themselves, the
long s and the Kelvin sign). -/
def foldRune (c : Char) : Char :=
  if 'A'.toNat ≤ c.toNat ∧ c.toNat ≤ 'Z'.toNat then Char.ofNat (c.toNat + 32)
  else if c.toNat = 0x17F then 's'
  else if c.toNat = 0x212A then 'k'
  else c

/-- Function `strings.EqualFold` against a word `t` of ASCII letters. -/
def EqualFold (s t : List Char) : Bool := s.map foldRune == t.map foldRune

/-- Unanchored `regexp.MatchString` for a pattern of the form `[class]+`: the
search succeeds at the first character of the class. -/
def matchClassPlus (cls : Char → Bool) : List Char → Bool
  | [] => false
  | c :: rest => if cls c then true else matchClassPlus cls rest

/-- The character class of the pattern `[0-9\.\-]`. -/
def numberClass (c : Char) : Bool := c.isDigit || c == '.' || c == '-'

/-- The character class of the pattern `[0-9\.\-Z\:]`. -/
def dateClass (c : Char) : Bool :=
  c.isDigit || c == '.' || c == '-' || c == 'Z' || c == ':'

/-- Function `toVal`. -/
def toVal (str : String) : Val × Bool :=
  let s := TrimSpace str.toList
  if s.head? = some '"' then
    (Val.str (String.mk (trimFunc (fun c => c == '"') s)), true)
  else if EqualFold s "true".toList then (Val.bool true, true)
  else if EqualFold s "false".toList then (Val.bool false, true)
  else if matchClassPlus numberClass s then (Val.str (String.mk s), true)
  else if matchClassPlus dateClass s then (Val.str (String.mk s), true)
  else (Val.str "", false)

/-- A number or date token: non-empty and made only of the characters 0-9, '.',
'-', 'Z' and ':'. -/
def isToken (s : List Char) : Bool := !s.isEmpty && s.all dateClass

/-- A number token: non-empty and made only of the characters 0-9, '.' and '-'. -/
def isNumberToken (s : List Char) : Bool := !s.isEmpty && s.all numberClass

/-! ## The TOML reader: toSlice -/

/-- The constant `utf8.RuneError`. -/
def RuneError : Nat := 0xFFFD

/-- Table `first` with `acceptRanges` of package `utf8`: for a lead byte of a
multi-byte sequence, its length and the accepted range of the second byte; none
for an ASCII byte and for an invalid lead byte. -/
def leadInfo (s0 : Nat) : Option (Nat × Nat × Nat) :=
  if 0xC2 ≤ s0 ∧ s0 ≤ 0xDF then some (2, 0x80, 0xBF)
  else if s0 = 0xE0 then some (3, 0xA0, 0xBF)
  else if (0xE1 ≤ s0 ∧ s0 ≤ 0xEC) ∨ s0 = 0xEE ∨ s0 = 0xEF then some (3, 0x80, 0xBF)
  else if s0 = 0xED then some (3, 0x80, 0x9F)
  else if s0 = 0xF0 then some (4, 0x90, 0xBF)
  else if 0xF1 ≤ s0 ∧ s0 ≤ 0xF3 then some (4, 0x80, 0xBF)
  else if s0 = 0xF4 then some (4, 0x80, 0x8F)
  else none

/-- Function `utf8.DecodeRuneInString` on the bytes of a string: the rune and its
width in bytes; an invalid encoding gives `RuneError` with width 1. -/
def DecodeRuneInString (s : List Nat) : Nat × Nat :=
  match s with
  | [] => (RuneError, 0)
  | s0 :: rest =>
    if s0 < 0x80 then (s0, 1)
    else
      match leadInfo s0 with
      | none => (RuneError, 1)
      | some (sz, lo, hi) =>
        if s.length < sz then (RuneError, 1)
        else
          match rest with
          | [] => (RuneError, 1)
          | s1 :: rest1 =>
            if s1 < lo ∨ hi < s1 then (RuneError, 1)
            else if sz ≤ 2 then ((s0 % 32) * 64 + s1 % 64, 2)
            else
              match rest1 with
              | [] => (RuneError, 1)
              | s2 :: rest2 =>
                if s2 < 0x80 ∨ 0xBF < s2 then (RuneError, 1)
                else if sz ≤ 3 then ((s0 % 16) * 4096 + (s1 % 64) * 64 + s2 % 64, 3)
                else
                  match rest2 with
                  | [] => (RuneError, 1)
                  | s3 :: _ =>
                    if s3 < 0x80 ∨ 0xBF < s3 then (RuneError, 1)
                    else ((s0 % 8) * 262144 + (s1 % 64) * 4096 + (s2 % 64) * 64 + s3 % 64, 4)

/-- The byte and rune `[`. -/
def openBracket : Nat := 0x5B

/-- The byte and rune `]`. -/
def closeBracket : Nat := 0x5D

/-- The slice `[]interface{}` built by `toSlice`: its elements are the slices of
the nested arrays. -/
inductive Slice where
  | mk (items : List Slice)

/-- The `for` loop of `toSlice` at index `i` with the slice `ret` built so far;
`toSlice(str, i)` inside the loop is the same loop started at `i + 1` with an empty
slice.  `fuel` bounds the number of iterations and calls; the result is the
triple returned by `toSlice`. -/
def toSliceLoop : Nat → List Nat → Nat → List Slice → Option (List Slice × Bool × Nat)
  | 0, _, _, _ => none
  | fuel + 1, str, i, ret =>
    if i < str.length then
      let r := (DecodeRuneInString (str.drop i)).1
      let width := (DecodeRuneInString (str.drop i)).2
      if r = openBracket then
        match toSliceLoop fuel str (i + 1) [] with
        | none => none
        | some (v, ok, pos) =>
          if !ok then some (ret, false, i)
          else toSliceLoop fuel str pos (ret ++ [Slice.mk v])
      else if r = closeBracket then some (ret, true, i + 1)
      else toSliceLoop fuel str (i + width) ret
    else some (ret, false, str.length)

/-- Function `toSlice` on the bytes of `str`, with enough fuel for every input. -/
def toSlice (str : List Nat) (pos : Nat) : Option (List Slice × Bool × Nat) :=
  toSliceLoop (str.length + 1) str (pos + 1) []

/-- Bracket matching as the specification words it: scan the bytes after an open
bracket with `depth` inner brackets open; the result is the number of bytes up to
and including the `]` that closes the bracket, if there is one. -/
def closeOffset : List Nat → Nat → Option Nat
  | [], _ => none
  | b :: rest, depth =>
    if b = openBracket then (closeOffset rest (depth + 1)).map (· + 1)
    else if b = closeBracket then
      match depth with
      | 0 => some 1
      | d + 1 => (closeOffset rest d).map (· + 1)
    else (closeOffset rest depth).map (· + 1)

/-- Index of the `]` matching the `[` at `pos`, brackets counted with nesting. -/
def matchingClose (str : List Nat) (pos : Nat) : Option Nat :=
  (closeOffset (str.drop (pos + 1)) 0).map (fun k => pos + k)

/-- Number of bracket pairs opened directly inside the bracket being matched,
scanning with `depth` inner brackets open. -/
def directPairs : List Nat → Nat → Nat
  | [], _ => 0
  | b :: rest, depth =>
    if b = openBracket then (if depth = 0 then 1 else 0) + directPairs rest (depth + 1)
    else if b = closeBracket then
      match depth with
      | 0 => 0
      | d + 1 => directPairs rest d
    else directPairs rest depth

/-- The bytes of an ASCII string. -/
def bytesOf (s : String) : List Nat := s.toList.map Char.toNat

/-! ## Lemmas on the pending map -/

theorem mapGet_mem {m : RequestMap} {k : String} {v : cheshireRequest}
    (h : mapGet m k = some v) : (k, v) ∈ m := by
  induction m with
  | nil => simp [mapGet] at h
  | cons e rest ih =>
    obtain ⟨k', v'⟩ := e
    simp only [mapGet] at h
    split at h
    · simp_all
    · exact List.mem_cons_of_mem _ (ih h)

theorem mapGet_none {m : RequestMap} {k : String} (h : mapGet m k = none) :
    k ∉ m.map Prod.fst := by
  induction m with
  | nil => simp
  | cons e rest ih =>
    obtain ⟨k', v'⟩ := e
    simp only [mapGet] at h
    split at h
    · simp at h
    · rename_i hne
      simp only [List.map_cons, List.mem_cons, not_or]
      exact ⟨fun hk => hne hk.symm, ih h⟩

theorem mem_mapDelete {m : RequestMap} {k : String} {e : String × cheshireRequest}
    (h : e ∈ mapDelete m k) : e ∈ m ∧ e.1 ≠ k := by
  induction m with
  | nil => simp [mapDelete] at h
  | cons e' rest ih =>
    obtain ⟨k', v'⟩ := e'
    simp only [mapDelete] at h
    split at h
    · exact ⟨List.mem_cons_of_mem _ (ih h).1, (ih h).2⟩
    · rename_i hne
      rcases List.mem_cons.mp h with rfl | h'
      · exact ⟨List.mem_cons_self _ _, hne⟩
      · exact ⟨List.mem_cons_of_mem _ (ih h').1, (ih h').2⟩

theorem mapDelete_of_not_mem {m : RequestMap} {k : String} (h : k ∉ m.map Prod.fst) :
    mapDelete m k = m := by
  induction m with
  | nil => rfl
  | cons e rest ih =>
    obtain ⟨k', v'⟩ := e
    simp only [List.map_cons, List.mem_cons, not_or] at h
    simp only [mapDelete]
    rw [if_neg (fun hk => h.1 hk.symm), ih h.2]

theorem mapGet_mapDelete_self (m : RequestMap) (k : String) : mapGet (mapDelete m k) k = none := by
  induction m with
  | nil => rfl
  | cons e rest ih =>
    obtain ⟨k', v'⟩ := e
    simp only [mapDelete]
    split
    · exact ih
    · rename_i hne
      simp only [mapGet, if_neg hne]
      exact ih

theorem keysNodup_mapDelete {m : RequestMap} (k : String) (h : keysNodup m) :
    keysNodup (mapDelete m k) := by
  induction m with
  | nil => simpa [mapDelete] using h
  | cons e rest ih =>
    obtain ⟨k', v'⟩ := e
    unfold keysNodup at h ih ⊢
    simp only [List.map_cons, List.nodup_cons] at h
    simp only [mapDelete]
    split
    · exact ih h.2
    · simp only [List.map_cons, List.nodup_cons]
      refine ⟨fun hk => h.1 ?_, ih h.2⟩
      obtain ⟨e, he, hek⟩ := List.mem_map.mp hk
      exact List.mem_map.mpr ⟨e, (mem_mapDelete he).1, hek⟩

theorem keysNodup_mapSet {m : RequestMap} (k : String) (v : cheshireRequest)
    (h : keysNodup m) : keysNodup (mapSet m k v) := by
  have h' := keysNodup_mapDelete k h
  unfold keysNodup at h' ⊢
  simp only [mapSet, List.map_cons, List.nodup_cons]
  refine ⟨fun hk => ?_, h'⟩
  obtain ⟨e, he, hek⟩ := List.mem_map.mp hk
  exact (mem_mapDelete he).2 hek

/-! ## Lemmas on cleanup -/

theorem drainOutgoing_eq (err : String) (q : List cheshireRequest) (tr : List Event) :
    drainOutgoing err q tr = tr ++ q.map (fun r => Event.error r.errorChan err) := by
  induction q generalizing tr with
  | nil => simp [drainOutgoing]
  | cons r rest ih => simp [drainOutgoing, ih]

theorem rangeClear_fst_nil (err : String) (snap : RequestMap) (m : RequestMap)
    (tr : List Event) (h : ∀ k ∈ m.map Prod.fst, k ∈ snap.map Prod.fst) :
    (rangeClear err snap (m, tr)).1 = [] := by
  induction snap generalizing m tr with
  | nil =>
    cases m with
    | nil => rfl
    | cons e rest => exact absurd (h e.1 (by simp)) (by simp)
  | cons e rest ih =>
    obtain ⟨k, v⟩ := e
    simp only [rangeClear]
    split
    · rename_i hnone
      apply ih
      intro k' hk'
      have := h k' hk'
      simp only [List.map_cons, List.mem_cons] at this
      rcases this with rfl | this
      · exact absurd hk' (mapGet_none hnone)
      · exact this
    · apply ih
      intro k' hk'
      obtain ⟨e, he, hek⟩ := List.mem_map.mp hk'
      have hm := mem_mapDelete he
      have := h k' (List.mem_map.mpr ⟨e, hm.1, hek⟩)
      simp only [List.map_cons, List.mem_cons] at this
      rcases this with rfl | this
      · exact absurd hek hm.2
      · exact this

theorem rangeClear_snd_errors (err : String) (snap : RequestMap) (m : RequestMap)
    (tr : List Event) :
    ∃ chs : List Chan, (rangeClear err snap (m, tr)).2 = tr ++ chs.map (fun c => Event.error c err) := by
  induction snap generalizing m tr with
  | nil => exact ⟨[], by simp [rangeClear]⟩
  | cons e rest ih =>
    obtain ⟨k, v⟩ := e
    simp only [rangeClear]
    split
    · exact ih m tr
    · obtain ⟨chs, hchs⟩ := ih (mapDelete m k) (tr ++ [Event.error v.errorChan err])
      exact ⟨v.errorChan :: chs, by simp [hchs]⟩

theorem rangeClear_self (err : String) (m : RequestMap) (tr : List Event) (h : keysNodup m) :
    rangeClear err m (m, tr) = ([], tr ++ m.map (fun e => Event.error e.2.errorChan err)) := by
  induction m generalizing tr with
  | nil => simp [rangeClear]
  | cons e rest ih =>
    obtain ⟨k, v⟩ := e
    unfold keysNodup at h ih
    simp only [List.map_cons, List.nodup_cons] at h
    have hdel : mapDelete ((k, v) :: rest) k = rest := by
      simp only [mapDelete, if_true]
      exact mapDelete_of_not_mem h.1
    simp only [rangeClear, mapGet, if_true, hdel]
    rw [ih _ h.2]
    simp

theorem cleanup_requests (s : cheshireConn) : (cleanup s).requests = [] := by
  simp only [cleanup]
  exact rangeClear_fst_nil _ _ _ _ (fun k hk => hk)

theorem cleanup_result_mem (s : cheshireConn) (ch : Chan) (resp : Response) :
    Event.result ch resp ∈ (cleanup s).trace ↔ Event.result ch resp ∈ s.trace := by
  obtain ⟨chs, hchs⟩ := rangeClear_snd_errors (closedErr s.addr) s.requests s.requests
    (drainOutgoing (closedErr s.addr) s.outgoingChan (s.trace ++ [Event.streamClosed]))
  simp only [cleanup, hchs]
  simp [drainOutgoing_eq]

/-! ## Routing invariant of the event loop -/

theorem Routed_cleanup {S : cheshireRequest → Prop} {G : Chan → Response → Prop}
    {s : cheshireConn} (h : Routed S G s) : Routed S G (cleanup s) := by
  refine ⟨?_, ?_, ?_⟩
  · intro e he
    rw [cleanup_requests] at he
    exact absurd he (List.not_mem_nil _)
  · intro r hr
    simp [cleanup] at hr
  · intro ch resp hmem
    exact h.2.2 ch resp ((cleanup_result_mem s ch resp).mp hmem)

theorem Routed_eventLoopBody {S : cheshireRequest → Prop} {G : Chan → Response → Prop}
    {s : cheshireConn} (h : Routed S G s) (sel : Select) : Routed S G (eventLoopBody s sel) := by
  obtain ⟨hreq, hout, htr⟩ := h
  cases sel with
  | outgoing marshalOk writeOk =>
    simp only [eventLoopBody]
    cases hq : s.outgoingChan with
    | nil => exact ⟨hreq, hout, htr⟩
    | cons request rest =>
      have hS : S request := hout request (by simp [hq])
      have hrest : ∀ r ∈ rest, S r := fun r hr => hout r (by simp [hq, hr])
      have hmap : ∀ e ∈ mapSet s.requests request.req.txnId request,
          e.1 = e.2.req.txnId ∧ S e.2 := by
        intro e he
        rcases List.mem_cons.mp he with rfl | he'
        · exact ⟨rfl, hS⟩
        · exact hreq e (mem_mapDelete he').1
      simp only
      split
      · refine ⟨hmap, hrest, ?_⟩
        intro ch resp hmem
        simp only [List.mem_append, List.mem_singleton] at hmem
        rcases hmem with hmem | hmem
        · exact htr ch resp hmem
        · cases hmem
      · exact ⟨hmap, hrest, htr⟩
  | incoming =>
    simp only [eventLoopBody]
    cases hq : s.incomingChan with
    | nil => exact ⟨hreq, hout, htr⟩
    | cons response rest =>
      simp only
      cases hget : mapGet s.requests response.txnId with
      | none => exact ⟨hreq, hout, htr⟩
      | some req =>
        have hin := hreq _ (mapGet_mem hget)
        have htr2 : ∀ ch resp, Event.result ch resp ∈
            s.trace ++ [Event.result req.resultChan response] →
            G ch resp ∨ ∃ r, S r ∧ r.resultChan = ch ∧ r.req.txnId = resp.txnId := by
          intro ch resp hmem
          simp only [List.mem_append, List.mem_singleton] at hmem
          rcases hmem with hmem | hmem
          · exact htr ch resp hmem
          · injection hmem with h1 h2
            subst h1 h2
            exact Or.inr ⟨req, hin.2, rfl, hin.1.symm⟩
        simp only
        split
        · exact ⟨fun e he => hreq e (mem_mapDelete he).1, hout, htr2⟩
        · exact ⟨hreq, hout, htr2⟩
  | exit =>
    simp only [eventLoopBody]
    split
    · exact ⟨hreq, hout, htr⟩
    · exact ⟨hreq, hout, htr⟩

theorem Routed_step {S : cheshireRequest → Prop} {G : Chan → Response → Prop}
    {s : cheshireConn} (h : Routed S G s) (st : Step) (hS : ∀ r, st = Step.send r → S r) :
    Routed S G (step s st) := by
  cases st with
  | send r =>
    obtain ⟨hreq, hout, htr⟩ := h
    refine ⟨hreq, ?_, htr⟩
    intro r' hr'
    simp only [step, List.mem_append, List.mem_singleton] at hr'
    rcases hr' with hr' | rfl
    · exact hout r' hr'
    · exact hS _ rfl
  | read res => exact h
  | listenerExit => exact h
  | close =>
    simp only [step, Close]
    split
    · exact h
    · exact h
  | loop sel =>
    simp only [step, eventLoopIter]
    split
    · have hb := Routed_eventLoopBody h sel
      split
      · exact hb
      · exact Routed_cleanup hb
    · exact h

theorem Routed_run {S : cheshireRequest → Prop} {G : Chan → Response → Prop}
    (steps : List Step) {s : cheshireConn} (h : Routed S G s)
    (hS : ∀ r, Step.send r ∈ steps → S r) : Routed S G (run s steps) := by
  induction steps generalizing s with
  | nil => exact h
  | cons st rest ih =>
    simp only [run, List.foldl_cons]
    exact ih (Routed_step h st (fun r hr => hS r (by simp [hr])))
      (fun r hr => hS r (List.mem_cons_of_mem _ hr))

/-! ## The pending map stays a map -/

theorem keysNodup_eventLoopBody {s : cheshireConn} (h : keysNodup s.requests) (sel : Select) :
    keysNodup (eventLoopBody s sel).requests := by
  cases sel with
  | outgoing marshalOk writeOk =>
    simp only [eventLoopBody]
    cases s.outgoingChan with
    | nil => exact h
    | cons request rest =>
      simp only
      split <;> exact keysNodup_mapSet _ _ h
  | incoming =>
    simp only [eventLoopBody]
    cases s.incomingChan with
    | nil => exact h
    | cons response rest =>
      simp only
      cases mapGet s.requests response.txnId with
      | none => exact h
      | some req =>
        simp only
        split
        · exact keysNodup_mapDelete _ h
        · exact h
  | exit =>
    simp only [eventLoopBody]
    split <;> exact h

theorem keysNodup_step {s : cheshireConn} (h : keysNodup s.requests) (st : Step) :
    keysNodup (step s st).requests := by
  cases st with
  | send r => exact h
  | read res => exact h
  | listenerExit => exact h
  | close => simp only [step, Close]; split <;> exact h
  | loop sel =>
    simp only [step, eventLoopIter]
    split
    · split
      · exact keysNodup_eventLoopBody h sel
      · rw [cleanup_requests]
        exact List.nodup_nil
    · exact h

/-- Every state reached from a connection whose pending map holds each key once
has a pending map that holds each key once. -/
theorem keysNodup_run (steps : List Step) {s : cheshireConn} (h : keysNodup s.requests) :
    keysNodup (run s steps).requests := by
  induction steps generalizing s with
  | nil => exact h
  | cons st rest ih =>
    simp only [run, List.foldl_cons]
    exact ih (keysNodup_step h st)

/-! ## C1 -/

/-- C1: from an empty pending map, after any interleaving of steps, every pending
entry is stored under its own request's transaction id, and every response the
loop delivered went to the result channel of a request that was enqueued (queued
at the start or sent during the run) with the response's transaction id. -/
theorem C1_no_cross_delivery (this : cheshireConn) (steps : List Step)
    (hempty : this.requests = []) :
    (∀ e ∈ (run this steps).requests, e.1 = e.2.req.txnId) ∧
    (∀ ch resp, Event.result ch resp ∈ (run this steps).trace →
      Event.result ch resp ∈ this.trace ∨
      ∃ r, (r ∈ this.outgoingChan ∨ Step.send r ∈ steps) ∧
        r.resultChan = ch ∧ r.req.txnId = resp.txnId) := by
  have h0 : Routed (fun r => r ∈ this.outgoingChan ∨ Step.send r ∈ steps)
      (fun ch resp => Event.result ch resp ∈ this.trace) this := by
    refine ⟨?_, fun r hr => Or.inl hr, fun ch resp hmem => Or.inl hmem⟩
    intro e he
    rw [hempty] at he
    exact absurd he (List.not_mem_nil _)
  have h := Routed_run steps h0 (fun r hr => Or.inr hr)
  exact ⟨fun e he => (h.1 e he).1, h.2.2⟩

/-- C1 at a concrete run: the hypothesis holds, the run delivers both responses,
and the conclusion of the theorem applies to it. -/
theorem C1_no_cross_delivery_witness :
    conn0.requests = [] ∧
    (run conn0 steps0).trace =
      [Event.wrote reqA.req, Event.wrote reqB.req,
       Event.result 3 { txnId := "go2", txnStatus := "completed" },
       Event.result 1 { txnId := "go1", txnStatus := "completed" }] ∧
    ((∀ e ∈ (run conn0 steps0).requests, e.1 = e.2.req.txnId) ∧
    (∀ ch resp, Event.result ch resp ∈ (run conn0 steps0).trace →
      Event.result ch resp ∈ conn0.trace ∨
      ∃ r, (r ∈ conn0.outgoingChan ∨ Step.send r ∈ steps0) ∧
        r.resultChan = ch ∧ r.req.txnId = resp.txnId)) :=
  ⟨rfl, by decide, C1_no_cross_delivery conn0 steps0 rfl⟩

/-! ## C2 -/

/-- What the incoming case does on a match, for every status: the response is
delivered to the entry's result channel, and the entry is removed exactly when the
status is the string `completed`. -/
theorem eventLoopBody_incoming_match (this : cheshireConn) (response : Response)
    (rest : List Response) (req : cheshireRequest)
    (hq : this.incomingChan = response :: rest)
    (hget : mapGet this.requests response.txnId = some req) :
    (eventLoopBody this Select.incoming).trace =
      this.trace ++ [Event.result req.resultChan response] ∧
    (eventLoopBody this Select.incoming).requests =
      (if response.txnStatus = "completed" then mapDelete this.requests response.txnId
       else this.requests) := by
  simp only [eventLoopBody, hq, hget]
  split <;> simp

/-- A response whose transaction id has no pending entry is discarded: nothing is
delivered and the pending map is unchanged. -/
theorem eventLoopBody_incoming_nomatch (this : cheshireConn) (response : Response)
    (rest : List Response) (hq : this.incomingChan = response :: rest)
    (hget : mapGet this.requests response.txnId = none) :
    (eventLoopBody this Select.incoming).trace = this.trace ∧
    (eventLoopBody this Select.incoming).requests = this.requests := by
  simp [eventLoopBody, hq, hget]

/-- After a matching response of status `completed`, the transaction id has no
pending entry any more. -/
theorem eventLoopBody_completed_untracked (this : cheshireConn) (response : Response)
    (rest : List Response) (req : cheshireRequest)
    (hq : this.incomingChan = response :: rest)
    (hget : mapGet this.requests response.txnId = some req)
    (hst : response.txnStatus = "completed") :
    mapGet (eventLoopBody this Select.incoming).requests response.txnId = none := by
  rw [(eventLoopBody_incoming_match this response rest req hq hget).2, if_pos hst]
  exact mapGet_mapDelete_self _ _

/-- C2, evaluated on the code: with `go1` pending, a response of status
`complete` is delivered but the entry stays in the pending map, and the next
response with the same id is delivered to the same channel again. -/
theorem C2_complete_keeps_entry :
    (eventLoopBody connStreaming Select.incoming).requests = [("go1", reqA)] ∧
    (eventLoopBody connStreaming Select.incoming).trace =
      [Event.result 1 { txnId := "go1", txnStatus := "complete" }] ∧
    (eventLoopBody (eventLoopBody connStreaming Select.incoming) Select.incoming).trace =
      [Event.result 1 { txnId := "go1", txnStatus := "complete" },
       Event.result 1 { txnId := "go1", txnStatus := "continue" }] := by
  decide

/-! ## C3 -/

/-- C3: at teardown of a connection whose pending map is a map (each key once),
`cleanup` appends exactly these events: the stream close, one "Connection is
closed" error per request in the outgoing queue, one per pending entry, and the
disconnect notification; so N waiting requests get N errors and no result, and
the outgoing queue and the pending map are empty afterwards. -/
theorem C3_cleanup_errors (this : cheshireConn) (hmap : keysNodup this.requests) :
    (cleanup this).trace = this.trace ++ cleanupEvents this ∧
    (cleanupEvents this).countP isError =
      this.outgoingChan.length + this.requests.length ∧
    (cleanupEvents this).filter isError =
      (this.outgoingChan.map (fun r => Event.error r.errorChan ("Connection is closed " ++ this.addr))) ++
      (this.requests.map (fun e => Event.error e.2.errorChan ("Connection is closed " ++ this.addr))) ∧
    (cleanupEvents this).countP isResult = 0 ∧
    (cleanup this).outgoingChan = [] ∧
    (cleanup this).requests = [] := by
  have hfe : ∀ (l : List cheshireRequest) (err : String),
      (l.map (fun r => Event.error r.errorChan err)).filter isError =
        l.map (fun r => Event.error r.errorChan err) := by
    intro l err
    rw [List.filter_eq_self]
    intro e he
    obtain ⟨r, _, rfl⟩ := List.mem_map.mp he
    rfl
  have hfm : ∀ (l : RequestMap) (err : String),
      (l.map (fun e => Event.error e.2.errorChan err)).filter isError =
        l.map (fun e => Event.error e.2.errorChan err) := by
    intro l err
    rw [List.filter_eq_self]
    intro e he
    obtain ⟨r, _, rfl⟩ := List.mem_map.mp he
    rfl
  have hfilter : (cleanupEvents this).filter isError =
      (this.outgoingChan.map (fun r => Event.error r.errorChan (closedErr this.addr))) ++
      (this.requests.map (fun e => Event.error e.2.errorChan (closedErr this.addr))) := by
    simp only [cleanupEvents, List.filter_append, hfe, hfm]
    simp [isError]
  refine ⟨?_, ?_, hfilter, ?_, rfl, cleanup_requests this⟩
  · simp only [cleanup, rangeClear_self _ _ _ hmap, drainOutgoing_eq, cleanupEvents]
    simp
  · rw [List.countP_eq_length_filter, hfilter]
    simp
  · rw [List.countP_eq_zero]
    intro e he
    simp only [cleanupEvents, List.mem_append, List.mem_map, List.mem_singleton] at he
    rcases he with ((rfl | ⟨r, _, rfl⟩) | ⟨r, _, rfl⟩) | rfl <;> simp [isResult]

/-- C3 at a concrete teardown: one queued and one pending request get one error
each. -/
theorem C3_cleanup_errors_witness :
    keysNodup connTeardown.requests ∧
    (cleanup connTeardown).trace =
      [Event.streamClosed, Event.error 4 "Connection is closed localhost:8009",
       Event.error 2 "Connection is closed localhost:8009", Event.disconnected] ∧
    ((cleanup connTeardown).trace = connTeardown.trace ++ cleanupEvents connTeardown ∧
    (cleanupEvents connTeardown).countP isError =
      connTeardown.outgoingChan.length + connTeardown.requests.length ∧
    (cleanupEvents connTeardown).filter isError =
      (connTeardown.outgoingChan.map
        (fun r => Event.error r.errorChan ("Connection is closed " ++ connTeardown.addr))) ++
      (connTeardown.requests.map
        (fun e => Event.error e.2.errorChan ("Connection is closed " ++ connTeardown.addr))) ∧
    (cleanupEvents connTeardown).countP isResult = 0 ∧
    (cleanup connTeardown).outgoingChan = [] ∧
    (cleanup connTeardown).requests = []) :=
  ⟨by decide, by decide, C3_cleanup_errors connTeardown (by decide)⟩

/-! ## Lemmas on transaction ids -/

theorem digitChar_toNat (k : Nat) (hk : k < 10) : (Nat.digitChar k).toNat - 48 = k := by
  interval_cases k <;> rfl

theorem digitsValue_toDigitsCore (fuel n : Nat) (ds : List Char) (h : n < fuel) :
    digitsValue 0 (Nat.toDigitsCore 10 fuel n ds) = digitsValue n ds := by
  induction fuel generalizing n ds with
  | zero => omega
  | succ f ih =>
    simp only [Nat.toDigitsCore]
    split
    · rename_i h0
      have hn : n < 10 := by omega
      simp only [digitsValue, List.foldl_cons, Nat.zero_mul, Nat.zero_add]
      rw [digitChar_toNat _ (Nat.mod_lt _ (by decide)), Nat.mod_eq_of_lt hn]
    · rename_i h0
      rw [ih (n / 10) _ (by omega)]
      simp only [digitsValue, List.foldl_cons]
      rw [digitChar_toNat _ (Nat.mod_lt _ (by decide))]
      congr 1
      omega

theorem digitsValue_repr (n : Nat) : digitsValue 0 (toString n).data = n := by
  show digitsValue 0 (Nat.toDigits 10 n).asString.data = n
  simp only [List.asString, Nat.toDigits]
  rw [digitsValue_toDigitsCore _ _ _ (Nat.lt_succ_self n)]
  rfl

theorem toString_nat_injective {a b : Nat} (h : toString a = toString b) : a = b := by
  have := congrArg (fun s => digitsValue 0 s.data) h
  simpa [digitsValue_repr] using this

theorem go_append_cancel {a b : String} (h : "go" ++ a = "go" ++ b) : a = b := by
  have := congrArg String.data h
  simp only [String.data_append, List.append_cancel_left_eq] at this
  exact String.ext this

theorem go_append_ne_empty (a : String) : "go" ++ a ≠ "" := by
  intro h
  have := congrArg String.length h
  simp only [String.length_append] at this
  have h2 : "go".length = 2 := by decide
  have h0 : "".length = 0 := by decide
  omega

theorem NewTxnId_nat (c : Nat) (hc : c + 1 < 2 ^ 63) :
    NewTxnId (c : Int) = ("go" ++ toString (c + 1), ((c + 1 : Nat) : Int)) := by
  have hw : wrapInt64 ((c : Int) + 1) = ((c + 1 : Nat) : Int) := by
    unfold wrapInt64
    have : (c : Int) + 1 < 9223372036854775808 := by
      have : (2:Nat) ^ 63 = 9223372036854775808 := by norm_num
      omega
    push_cast
    omega
  simp only [NewTxnId, hw]
  rfl

theorem txnIds_eq (n c : Nat) (h : c + n < 2 ^ 63) :
    txnIds n (c : Int) = (List.range n).map (fun k => "go" ++ toString (c + k + 1)) := by
  induction n generalizing c with
  | zero => rfl
  | succ n ih =>
    rw [txnIds, NewTxnId_nat c (by omega), List.range_succ_eq_map]
    simp only [List.map_cons, List.map_map]
    rw [ih (c + 1) (by omega)]
    congr 1
    apply List.map_congr_left
    intro k _
    simp only [Function.comp]
    congr 2
    omega

theorem counters_eq (n c : Nat) (h : c + n < 2 ^ 63) :
    counters n (c : Int) = (List.range n).map (fun k => ((c + k + 1 : Nat) : Int)) := by
  induction n generalizing c with
  | zero => rfl
  | succ n ih =>
    rw [counters, NewTxnId_nat c (by omega), List.range_succ_eq_map]
    simp only [List.map_cons, List.map_map]
    rw [ih (c + 1) (by omega)]
    congr 1
    apply List.map_congr_left
    intro k _
    simp only [Function.comp]
    congr 1
    omega

theorem stampAll_txnIds (reqs : List Request) (c : Int) (h : ∀ r ∈ reqs, r.txnId = "") :
    (stampAll reqs c).map (fun r => r.txnId) = txnIds reqs.length c := by
  induction reqs generalizing c with
  | nil => rfl
  | cons r rest ih =>
    have hr : r.txnId = "" := h r (by simp)
    simp only [stampAll, stampTxnId, hr, if_true, List.map_cons, List.length_cons, txnIds]
    rw [ih _ (fun r' hr' => h r' (by simp [hr']))]

/-! ## C4 -/

/-- C4: `NewTxnId` returns "go" followed by the decimal form of the incremented
counter; in a sequence of fewer than 2^63 calls from counter 0 every id is
non-empty, the counter values are positive and strictly increasing, the ids are
pairwise distinct, and requests lacking an id that are stamped one after the
other get pairwise distinct non-empty ids. -/
theorem C4_NewTxnId_distinct (n : Nat) (hn : n < 2 ^ 63) :
    (∀ c : Int, NewTxnId c = ("go" ++ toString (wrapInt64 (c + 1)), wrapInt64 (c + 1))) ∧
    (∀ id ∈ txnIds n 0, id ≠ "") ∧
    (counters n 0).Pairwise (fun a b => a < b) ∧
    (∀ v ∈ counters n 0, 0 < v) ∧
    (txnIds n 0).Nodup ∧
    (∀ reqs : List Request, reqs.length = n → (∀ r ∈ reqs, r.txnId = "") →
      ((stampAll reqs 0).map (fun r => r.txnId)).Nodup ∧
      ∀ r ∈ stampAll reqs 0, r.txnId ≠ "") := by
  have hids := txnIds_eq n 0 (by omega)
  have hcs := counters_eq n 0 (by omega)
  simp only [Nat.cast_zero] at hids hcs
  have hne : ∀ id ∈ txnIds n 0, id ≠ "" := by
    intro id hid
    rw [hids] at hid
    obtain ⟨k, _, rfl⟩ := List.mem_map.mp hid
    exact go_append_ne_empty _
  have hnodup : (txnIds n 0).Nodup := by
    rw [hids]
    refine List.Nodup.map ?_ (List.nodup_range n)
    intro a b hab
    have := toString_nat_injective (go_append_cancel hab)
    omega
  refine ⟨fun c => rfl, hne, ?_, ?_, hnodup, ?_⟩
  · rw [hcs, List.pairwise_map]
    refine List.Pairwise.imp ?_ (List.pairwise_lt_range n)
    intro a b hab
    omega
  · intro v hv
    rw [hcs] at hv
    obtain ⟨k, _, rfl⟩ := List.mem_map.mp hv
    omega
  · intro reqs hlen hempty
    have hmap := stampAll_txnIds reqs 0 hempty
    rw [hlen] at hmap
    refine ⟨by rw [hmap]; exact hnodup, ?_⟩
    intro r hr
    exact hne r.txnId (by rw [← hmap]; exact List.mem_map.mpr ⟨r, hr, rfl⟩)

/-- C4 for three calls: the ids are go1, go2, go3. -/
theorem C4_NewTxnId_distinct_witness :
    3 < 2 ^ 63 ∧ txnIds 3 0 = ["go1", "go2", "go3"] ∧ counters 3 0 = [1, 2, 3] ∧
    ((∀ c : Int, NewTxnId c = ("go" ++ toString (wrapInt64 (c + 1)), wrapInt64 (c + 1))) ∧
    (∀ id ∈ txnIds 3 0, id ≠ "") ∧
    (counters 3 0).Pairwise (fun a b => a < b) ∧
    (∀ v ∈ counters 3 0, 0 < v) ∧
    (txnIds 3 0).Nodup ∧
    (∀ reqs : List Request, reqs.length = 3 → (∀ r ∈ reqs, r.txnId = "") →
      ((stampAll reqs 0).map (fun r => r.txnId)).Nodup ∧
      ∀ r ∈ stampAll reqs 0, r.txnId ≠ "")) :=
  ⟨by norm_num, by decide, by decide, C4_NewTxnId_distinct 3 (by norm_num)⟩

/-! ## Lemmas on admission control -/

theorem admissionLoop_pass (maxInFlight : Int) (pending : Nat → Nat) (sleeps : Nat)
    (h : (pending sleeps : Int) ≤ maxInFlight) :
    admissionLoop maxInFlight pending sleeps = Admission.admitted sleeps := by
  rw [admissionLoop, if_neg (by omega)]

theorem admissionLoop_wait (maxInFlight : Int) (pending : Nat → Nat) (sleeps : Nat)
    (h : (pending sleeps : Int) > maxInFlight) (hs : sleeps ≤ 20) :
    admissionLoop maxInFlight pending sleeps =
      admissionLoop maxInFlight pending (sleeps + 1) := by
  rw [admissionLoop, if_pos h, if_neg (by omega)]

theorem admissionLoop_fail_from (maxInFlight : Int) (pending : Nat → Nat)
    (h : ∀ k, k ≤ 21 → (pending k : Int) > maxInFlight) (d sleeps : Nat)
    (hd : sleeps + d = 21) :
    admissionLoop maxInFlight pending sleeps = Admission.failed 21 := by
  induction d generalizing sleeps with
  | zero =>
    have hs : sleeps = 21 := by omega
    subst hs
    rw [admissionLoop, if_pos (h 21 (le_refl _)), if_pos (by decide)]
  | succ d ih =>
    rw [admissionLoop_wait _ _ _ (h sleeps (by omega)) (by omega)]
    exact ih (sleeps + 1) (by omega)

theorem admissionLoop_fail (maxInFlight : Int) (pending : Nat → Nat)
    (h : ∀ k, k ≤ 21 → (pending k : Int) > maxInFlight) :
    admissionLoop maxInFlight pending 0 = Admission.failed 21 :=
  admissionLoop_fail_from maxInFlight pending h 21 0 (by omega)

theorem admissionLoop_cases (maxInFlight : Int) (pending : Nat → Nat) (d sleeps : Nat)
    (hd : sleeps + d = 21) :
    (∃ n, sleeps ≤ n ∧ n ≤ 21 ∧
      admissionLoop maxInFlight pending sleeps = Admission.admitted n) ∨
    admissionLoop maxInFlight pending sleeps = Admission.failed 21 := by
  induction d generalizing sleeps with
  | zero =>
    have hs : sleeps = 21 := by omega
    subst hs
    by_cases hp : (pending 21 : Int) > maxInFlight
    · right
      rw [admissionLoop, if_pos hp, if_pos (by decide)]
    · left
      exact ⟨21, le_refl _, le_refl _, admissionLoop_pass _ _ _ (by omega)⟩
  | succ d ih =>
    by_cases hp : (pending sleeps : Int) > maxInFlight
    · rw [admissionLoop_wait _ _ _ hp (by omega)]
      rcases ih (sleeps + 1) (by omega) with ⟨n, h1, h2, h3⟩ | h
      · exact Or.inl ⟨n, by omega, h2, h3⟩
      · exact Or.inr h
    · left
      exact ⟨sleeps, le_refl _, by omega, admissionLoop_pass _ _ _ (by omega)⟩

/-- For every evolution of the pending count, `sendRequest` sleeps at most 21
times. -/
theorem sendRequest_sleeps_le (this : cheshireConn) (pending : Nat → Nat) (request : Request)
    (resultChan errorChan : Chan) :
    (sendRequest this pending request resultChan errorChan).sleeps ≤ 21 := by
  unfold sendRequest
  rcases admissionLoop_cases this.maxInFlight pending 21 0 (by omega) with ⟨n, _, h2, h3⟩ | h
  · rw [h3]
    simp only
    split <;> exact h2
  · rw [h]

/-! ## C5 -/

/-- C5 fails as stated: on a connection whose connected flag is false but whose
pending count stays above `maxInFlight`, `sendRequest` sleeps 21 times and returns
the max-inflight error, not "Not connected". -/
theorem C5_not_connected_counterexample :
    connDead.connected = false ∧
    (sendRequest connDead (pendingOf connDead) reqB.req 3 4).sleeps = 21 ∧
    (sendRequest connDead (pendingOf connDead) reqB.req 3 4).result =
      SendResult.err "Max inflight sustained for more then 20 seconds, fail" ∧
    (sendRequest connDead (pendingOf connDead) reqB.req 3 4).result ≠
      SendResult.err "Not connected" := by
  have h : admissionLoop connDead.maxInFlight (pendingOf connDead) 0 = Admission.failed 21 :=
    admissionLoop_fail _ _
      (fun _ _ => (by decide : ((connDead.requests.length : Nat) : Int) > connDead.maxInFlight))
  unfold sendRequest
  rw [h]
  refine ⟨rfl, rfl, rfl, ?_⟩
  simp only
  decide

/-- C5 as amended: on a connection whose connected flag is false, `sendRequest`
puts nothing on the outgoing queue and returns an error for every evolution of the
pending count; when the pending count is at most `maxInFlight` at the first check,
the error is "Not connected", no sleep is performed and the connection is left
as it was. -/
theorem C5_not_connected (this : cheshireConn) (pending : Nat → Nat) (request : Request)
    (resultChan errorChan : Chan) (hconn : this.connected = false) :
    (sendRequest this pending request resultChan errorChan).conn.outgoingChan =
      this.outgoingChan ∧
    (∃ msg, (sendRequest this pending request resultChan errorChan).result =
      SendResult.err msg) ∧
    ((pending 0 : Int) ≤ this.maxInFlight →
      (sendRequest this pending request resultChan errorChan).result =
        SendResult.err "Not connected" ∧
      (sendRequest this pending request resultChan errorChan).sleeps = 0 ∧
      (sendRequest this pending request resultChan errorChan).conn = this) := by
  refine ⟨?_, ?_, ?_⟩
  · unfold sendRequest
    rcases admissionLoop_cases this.maxInFlight pending 21 0 (by omega) with ⟨n, _, _, h3⟩ | h
    · rw [h3]; simp [hconn]
    · rw [h]; simp [Close, hconn]
  · unfold sendRequest
    rcases admissionLoop_cases this.maxInFlight pending 21 0 (by omega) with ⟨n, _, _, h3⟩ | h
    · rw [h3]; simp [hconn]
    · rw [h]; simp
  · intro hp
    unfold sendRequest
    rw [admissionLoop_pass _ _ _ hp]
    simp [hconn]

/-- C5 as amended, on a torn-down connection with an empty pending map. -/
theorem C5_not_connected_witness :
    connTeardown.connected = false ∧
    ((sendRequest (cleanup connTeardown) (pendingOf (cleanup connTeardown)) reqB.req 3
        4).conn.outgoingChan = (cleanup connTeardown).outgoingChan ∧
    (∃ msg, (sendRequest (cleanup connTeardown) (pendingOf (cleanup connTeardown)) reqB.req 3
        4).result = SendResult.err msg) ∧
    ((pendingOf (cleanup connTeardown) 0 : Int) ≤ (cleanup connTeardown).maxInFlight →
      (sendRequest (cleanup connTeardown) (pendingOf (cleanup connTeardown)) reqB.req 3
        4).result = SendResult.err "Not connected" ∧
      (sendRequest (cleanup connTeardown) (pendingOf (cleanup connTeardown)) reqB.req 3
        4).sleeps = 0 ∧
      (sendRequest (cleanup connTeardown) (pendingOf (cleanup connTeardown)) reqB.req 3
        4).conn = cleanup connTeardown)) :=
  ⟨rfl, C5_not_connected (cleanup connTeardown) (pendingOf (cleanup connTeardown)) reqB.req 3 4
    rfl⟩

/-! ## C6 -/

/-- C6, evaluated on the code: on a connected connection whose pending count stays
above `maxInFlight`, `sendRequest` performs 21 one-second sleeps before it fails
with the max-inflight error. -/
theorem C6_twenty_one_sleeps :
    (sendRequest connBusy (pendingOf connBusy) reqB.req 3 4).sleeps = 21 ∧
    (sendRequest connBusy (pendingOf connBusy) reqB.req 3 4).result =
      SendResult.err "Max inflight sustained for more then 20 seconds, fail" := by
  have h : admissionLoop connBusy.maxInFlight (pendingOf connBusy) 0 = Admission.failed 21 :=
    admissionLoop_fail _ _
      (fun _ _ => (by decide : ((connBusy.requests.length : Nat) : Int) > connBusy.maxInFlight))
  unfold sendRequest
  rw [h]
  exact ⟨rfl, rfl⟩

/-! ## C7 -/

/-- C7, evaluated on the code: with `maxInFlight` 1 and one transaction pending,
`sendRequest` admits a second request without any sleep, and once the event loop
has taken it from the queue two transactions are pending. -/
theorem C7_admits_at_limit :
    (connFull.requests.length : Int) = connFull.maxInFlight ∧
    (sendRequest connFull (pendingOf connFull) reqB.req 3 4).sleeps = 0 ∧
    (sendRequest connFull (pendingOf connFull) reqB.req 3 4).result = SendResult.ok reqB ∧
    (sendRequest connFull (pendingOf connFull) reqB.req 3 4).conn.outgoingChan = [reqB] ∧
    (eventLoopIter (sendRequest connFull (pendingOf connFull) reqB.req 3 4).conn
      (Select.outgoing true true)).requests.length = 2 := by
  have h : admissionLoop connFull.maxInFlight (pendingOf connFull) 0 = Admission.admitted 0 :=
    admissionLoop_pass _ _ _ (by decide)
  unfold sendRequest
  rw [h]
  refine ⟨by decide, rfl, by decide, by decide, by decide⟩

/-! ## Teardown after an exit signal -/

theorem cleanup_connected (s : cheshireConn) : (cleanup s).connected = s.connected := rfl

theorem eventLoopBody_connected (s : cheshireConn) (sel : Select)
    (h : (eventLoopBody s sel).connected = true) :
    s.connected = true ∧ s.exitChan ≤ (eventLoopBody s sel).exitChan := by
  cases sel with
  | outgoing marshalOk writeOk =>
    simp only [eventLoopBody] at h ⊢
    cases hq : s.outgoingChan with
    | nil => simp only [hq] at h ⊢; exact ⟨h, le_refl _⟩
    | cons request rest =>
      simp only [hq] at h ⊢
      split at h <;> split <;> exact ⟨h, le_refl _⟩
  | incoming =>
    simp only [eventLoopBody] at h ⊢
    cases hq : s.incomingChan with
    | nil => simp only [hq] at h ⊢; exact ⟨h, le_refl _⟩
    | cons response rest =>
      simp only [hq] at h ⊢
      cases hget : mapGet s.requests response.txnId with
      | none => simp only [hget] at h ⊢; exact ⟨h, le_refl _⟩
      | some req =>
        simp only [hget] at h ⊢
        split at h <;> split <;> exact ⟨h, le_refl _⟩
  | exit =>
    simp only [eventLoopBody] at h ⊢
    split at h
    · rename_i h0
      rw [if_pos h0]
      exact ⟨h, le_refl _⟩
    · simp at h

theorem Closing_step {s : cheshireConn} (h : Closing s) (st : Step) : Closing (step s st) := by
  obtain ⟨h1, h2⟩ := h
  cases st with
  | send r => exact ⟨h1, h2⟩
  | read res => exact ⟨h1, h2⟩
  | listenerExit => exact ⟨fun _ => Nat.le_add_left 1 _, h2⟩
  | close =>
    simp only [step, Close]
    split
    · exact ⟨h1, h2⟩
    · exact ⟨fun _ => Nat.le_add_left 1 _, h2⟩
  | loop sel =>
    simp only [step, eventLoopIter]
    split
    · rename_i hc
      split
      · rename_i hn
        have hb := eventLoopBody_connected s sel hn
        exact ⟨fun _ => le_trans (h1 hc) hb.2, fun hf => by rw [hn] at hf; cases hf⟩
      · rename_i hn
        refine ⟨fun hf => ?_, fun _ => cleanup_requests _⟩
        rw [cleanup_connected] at hf
        exact absurd hf hn
    · exact ⟨h1, h2⟩

theorem Closing_run (steps : List Step) {s : cheshireConn} (h : Closing s) :
    Closing (run s steps) := by
  induction steps generalizing s with
  | nil => exact h
  | cons st rest ih =>
    simp only [run, List.foldl_cons]
    exact ih (Closing_step h st)

theorem Closing_exit {s : cheshireConn} (h : Closing s) :
    (step s (Step.loop Select.exit)).connected = false := by
  simp only [step, eventLoopIter]
  cases hc : s.connected with
  | false => simp [hc]
  | true =>
    have he : s.exitChan ≠ 0 := by
      have := h.1 hc
      omega
    simp [hc, eventLoopBody, he, cleanup_connected]

theorem step_disconnected {s : cheshireConn} (h : s.connected = false) (st : Step) :
    (step s st).connected = false ∧ (step s st).requests = s.requests := by
  cases st with
  | send r => exact ⟨h, rfl⟩
  | read res => exact ⟨h, rfl⟩
  | listenerExit => exact ⟨h, rfl⟩
  | close => simp [step, Close, h]
  | loop sel => simp [step, eventLoopIter, h]

theorem eventLoopBody_maxInFlight (s : cheshireConn) (sel : Select) :
    (eventLoopBody s sel).maxInFlight = s.maxInFlight := by
  cases sel with
  | outgoing marshalOk writeOk =>
    simp only [eventLoopBody]
    cases s.outgoingChan with
    | nil => rfl
    | cons request rest => simp only; split <;> rfl
  | incoming =>
    simp only [eventLoopBody]
    cases s.incomingChan with
    | nil => rfl
    | cons response rest =>
      simp only
      cases mapGet s.requests response.txnId with
      | none => rfl
      | some req => simp only; split <;> rfl
  | exit =>
    simp only [eventLoopBody]
    split <;> rfl

theorem step_maxInFlight (s : cheshireConn) (st : Step) :
    (step s st).maxInFlight = s.maxInFlight := by
  cases st with
  | send r => rfl
  | read res => rfl
  | listenerExit => rfl
  | close => simp only [step, Close]; split <;> rfl
  | loop sel =>
    simp only [step, eventLoopIter]
    split
    · split
      · exact eventLoopBody_maxInFlight s sel
      · exact eventLoopBody_maxInFlight s sel
    · rfl

theorem run_maxInFlight (steps : List Step) (s : cheshireConn) :
    (run s steps).maxInFlight = s.maxInFlight := by
  induction steps generalizing s with
  | nil => rfl
  | cons st rest ih =>
    simp only [run, List.foldl_cons]
    have := ih (step s st)
    simp only [run] at this
    rw [this, step_maxInFlight]

theorem run_disconnected (steps : List Step) {s : cheshireConn} (h : s.connected = false) :
    (run s steps).connected = false ∧ (run s steps).requests = s.requests := by
  induction steps generalizing s with
  | nil => exact ⟨h, rfl⟩
  | cons st rest ih =>
    simp only [run, List.foldl_cons]
    have hs := step_disconnected h st
    have hr := ih hs.1
    simp only [run] at hr
    exact ⟨hr.1, hr.2.trans hs.2⟩

/-! ## Backpressure failure and teardown -/

/-- On a connected connection with `maxInFlight >= 0` whose pending count is above
`maxInFlight` at every check of the bounded wait, `sendRequest` ends with the
max-inflight error as its return value, leaves the outgoing queue as it was and
waits with an exit signal on the exit channel.  Whatever steps happen before the
event loop takes the exit case, after that iteration the connected flag is false
and the pending map is empty; they stay so under all later steps, and every later
`sendRequest` returns "Not connected" without queueing anything.  Whether the
failing call itself returns is the matter of `sendRequestReturns`. -/
theorem backpressure_teardown (this : cheshireConn) (pending : Nat → Nat)
    (request : Request) (resultChan errorChan : Chan)
    (hconn : this.connected = true) (hmax : 0 ≤ this.maxInFlight)
    (hbusy : ∀ k, k ≤ 21 → (pending k : Int) > this.maxInFlight) :
    (sendRequest this pending request resultChan errorChan).result =
      SendResult.err "Max inflight sustained for more then 20 seconds, fail" ∧
    (sendRequest this pending request resultChan errorChan).conn.outgoingChan =
      this.outgoingChan ∧
    (sendRequest this pending request resultChan errorChan).conn.exitChan =
      this.exitChan + 1 ∧
    ∀ (before later : List Step) (request2 : Request) (resultChan2 errorChan2 : Chan),
      (step (run (sendRequest this pending request resultChan errorChan).conn before)
        (Step.loop Select.exit)).connected = false ∧
      (step (run (sendRequest this pending request resultChan errorChan).conn before)
        (Step.loop Select.exit)).requests = [] ∧
      (run (step (run (sendRequest this pending request resultChan errorChan).conn before)
        (Step.loop Select.exit)) later).connected = false ∧
      (run (step (run (sendRequest this pending request resultChan errorChan).conn before)
        (Step.loop Select.exit)) later).requests = [] ∧
      (sendRequest
        (run (step (run (sendRequest this pending request resultChan errorChan).conn before)
          (Step.loop Select.exit)) later)
        (pendingOf (run (step (run (sendRequest this pending request resultChan errorChan).conn
          before) (Step.loop Select.exit)) later))
        request2 resultChan2 errorChan2).result = SendResult.err "Not connected" ∧
      (sendRequest
        (run (step (run (sendRequest this pending request resultChan errorChan).conn before)
          (Step.loop Select.exit)) later)
        (pendingOf (run (step (run (sendRequest this pending request resultChan errorChan).conn
          before) (Step.loop Select.exit)) later))
        request2 resultChan2 errorChan2).conn =
      run (step (run (sendRequest this pending request resultChan errorChan).conn before)
        (Step.loop Select.exit)) later := by
  have hout : sendRequest this pending request resultChan errorChan =
      { conn := Close this
        result := SendResult.err "Max inflight sustained for more then 20 seconds, fail"
        sleeps := 21
        exitSend := this.connected } := by
    unfold sendRequest
    rw [admissionLoop_fail _ _ hbusy]
  have hclose : Close this = { this with exitChan := this.exitChan + 1 } := by
    simp [Close, hconn]
  have hmaxc : (Close this).maxInFlight = this.maxInFlight := by rw [hclose]
  have hC : Closing (Close this) := by
    rw [hclose]
    exact ⟨fun _ => Nat.le_add_left 1 _, fun hf => by simp [hconn] at hf⟩
  rw [hout]
  refine ⟨rfl, by rw [hclose], by rw [hclose], ?_⟩
  intro before later request2 resultChan2 errorChan2
  simp only
  have hB := Closing_run before hC
  have hE := Closing_exit hB
  have hE2 := (Closing_step hB (Step.loop Select.exit)).2 hE
  have hL := run_disconnected later hE
  have hLreq : (run (step (run (Close this) before) (Step.loop Select.exit)) later).requests
      = [] := hL.2.trans hE2
  have hLmax : (run (step (run (Close this) before) (Step.loop Select.exit)) later).maxInFlight
      = this.maxInFlight := by
    rw [run_maxInFlight, step_maxInFlight, run_maxInFlight, hmaxc]
  have hadm := admissionLoop_pass
    (run (step (run (Close this) before) (Step.loop Select.exit)) later).maxInFlight
    (pendingOf (run (step (run (Close this) before) (Step.loop Select.exit)) later)) 0
    (by simp only [pendingOf, hLreq, List.length_nil, Nat.cast_zero, hLmax]; exact hmax)
  refine ⟨hE, hE2, hL.1, hLreq, ?_, ?_⟩
  · unfold sendRequest
    rw [hadm]
    simp [hL.1]
  · unfold sendRequest
    rw [hadm]
    simp [hL.1]

/-- The teardown after a backpressure failure on a connection with `maxInFlight`
0 and one transaction that stays pending: the exit case empties the pending map,
and a later call gets "Not connected". -/
theorem backpressure_teardown_example :
    connBusy.connected = true ∧ 0 ≤ connBusy.maxInFlight ∧
    (sendRequest connBusy (pendingOf connBusy) reqB.req 3 4).result =
      SendResult.err "Max inflight sustained for more then 20 seconds, fail" ∧
    (step (run (sendRequest connBusy (pendingOf connBusy) reqB.req 3 4).conn
      [Step.read { txnId := "go1", txnStatus := "continue" }])
      (Step.loop Select.exit)).requests = [] ∧
    (sendRequest
      (run (step (run (sendRequest connBusy (pendingOf connBusy) reqB.req 3 4).conn
        [Step.read { txnId := "go1", txnStatus := "continue" }])
        (Step.loop Select.exit)) [Step.close])
      (pendingOf (run (step (run (sendRequest connBusy (pendingOf connBusy) reqB.req 3 4).conn
        [Step.read { txnId := "go1", txnStatus := "continue" }])
        (Step.loop Select.exit)) [Step.close]))
      reqA.req 1 2).result = SendResult.err "Not connected" :=
  have h := backpressure_teardown connBusy (pendingOf connBusy) reqB.req 3 4 rfl (by decide)
    (fun _ _ => (by decide : ((connBusy.requests.length : Nat) : Int) > connBusy.maxInFlight))
  have h2 := h.2.2.2 [Step.read { txnId := "go1", txnStatus := "continue" }] [Step.close]
    reqA.req 1 2
  ⟨rfl, by decide, h.1, h2.2.1, h2.2.2.2.2.1⟩

/-! ## Lemmas on the receipt of an exit signal -/

theorem exitPoint_disconnected (steps : List Step) {s : cheshireConn}
    (h : s.connected = false) : exitPoint s steps = none := by
  induction steps generalizing s with
  | nil => rfl
  | cons st rest ih =>
    rw [exitPoint, if_neg (by simp [h])]
    exact ih (step_disconnected h st).1

theorem exitPoint_exit (s : cheshireConn) (rest : List Step) (hconn : s.connected = true)
    (hexit : s.exitChan ≠ 0) :
    exitPoint s (Step.loop Select.exit :: rest) = some s := by
  rw [exitPoint, if_pos ⟨rfl, hconn, hexit⟩]

theorem step_connected_of_ne_exit (s : cheshireConn) (st : Step)
    (hne : st ≠ Step.loop Select.exit) (hconn : s.connected = true) :
    (step s st).connected = true := by
  cases st with
  | send r => exact hconn
  | read res => exact hconn
  | listenerExit => exact hconn
  | close => simp only [step, Close]; split <;> exact hconn
  | loop sel =>
    have hbody : (eventLoopBody s sel).connected = true := by
      cases sel with
      | outgoing marshalOk writeOk =>
        simp only [eventLoopBody]
        cases s.outgoingChan with
        | nil => exact hconn
        | cons request rest => simp only; split <;> exact hconn
      | incoming =>
        simp only [eventLoopBody]
        cases s.incomingChan with
        | nil => exact hconn
        | cons response rest =>
          simp only
          cases mapGet s.requests response.txnId with
          | none => exact hconn
          | some req => simp only; split <;> exact hconn
      | exit => exact absurd rfl hne
    simp only [step, eventLoopIter, hconn, if_true, hbody]

/-- When a sender waits on a connected connection and the event loop takes the
exit case at some step, the loop receives a signal. -/
theorem exitPoint_isSome (steps : List Step) {s : cheshireConn} (hC : Closing s)
    (hconn : s.connected = true) (hmem : Step.loop Select.exit ∈ steps) :
    (exitPoint s steps).isSome = true := by
  induction steps generalizing s with
  | nil => simp at hmem
  | cons st rest ih =>
    by_cases hst : st = Step.loop Select.exit
    · subst hst
      have hexit : s.exitChan ≠ 0 := by
        have := hC.1 hconn
        omega
      rw [exitPoint_exit s rest hconn hexit]
      rfl
    · rw [exitPoint, if_neg (fun h => hst h.1)]
      refine ih (Closing_step hC st) (step_connected_of_ne_exit s st hst hconn) ?_
      rcases List.mem_cons.mp hmem with h | h
      · exact absurd h.symm hst
      · exact h

/-- The failing call of `sendRequest` returns exactly in the runs where the event
loop receives an exit signal and picks the caller's: on a connected connection
whose pending count stays above `maxInFlight`, the call waits on the exit
channel; if the loop takes the exit case at some step and the signal it picks is
the caller's, the call returns, and if it picks another sender's, or never takes
the exit case, the call does not return. -/
theorem sendRequestReturns_iff_picked (this : cheshireConn) (pending : Nat → Nat)
    (request : Request) (resultChan errorChan : Chan) (steps : List Step) (pick : Nat)
    (hconn : this.connected = true)
    (hbusy : ∀ k, k ≤ 21 → (pending k : Int) > this.maxInFlight) :
    (sendRequest this pending request resultChan errorChan).exitSend = true ∧
    (Step.loop Select.exit ∈ steps → pick = this.exitChan →
      sendRequestReturns this pending request resultChan errorChan steps pick = true) ∧
    (pick ≠ this.exitChan →
      sendRequestReturns this pending request resultChan errorChan steps pick = false) ∧
    (Step.loop Select.exit ∉ steps →
      sendRequestReturns this pending request resultChan errorChan steps pick = false) := by
  have hout : sendRequest this pending request resultChan errorChan =
      { conn := Close this
        result := SendResult.err "Max inflight sustained for more then 20 seconds, fail"
        sleeps := 21
        exitSend := this.connected } := by
    unfold sendRequest
    rw [admissionLoop_fail _ _ hbusy]
  have hclose : Close this = { this with exitChan := this.exitChan + 1 } := by
    simp [Close, hconn]
  have hC : Closing (Close this) := by
    rw [hclose]
    exact ⟨fun _ => Nat.le_add_left 1 _, fun hf => by simp [hconn] at hf⟩
  have hcc : (Close this).connected = true := by rw [hclose]; exact hconn
  unfold sendRequestReturns closeReturns
  rw [hout]
  simp only [hconn, if_true]
  refine ⟨trivial, ?_, ?_, ?_⟩
  · intro hmem hpick
    have hsome := exitPoint_isSome steps hC hcc hmem
    cases hp : exitPoint (Close this) steps with
    | none => rw [hp] at hsome; cases hsome
    | some e => simp [hpick]
  · intro hpick
    cases hp : exitPoint (Close this) steps with
    | none => rfl
    | some e => simp [hpick]
  · intro hmem
    have hnone : ∀ (l : List Step) (s : cheshireConn), Step.loop Select.exit ∉ l →
        exitPoint s l = none := by
      intro l
      induction l with
      | nil => intro s _; rfl
      | cons st rest ih =>
        intro s hl
        rw [exitPoint, if_neg (fun h => hl (by rw [h.1]; exact List.mem_cons_self _ _))]
        exact ih _ (fun h => hl (List.mem_cons_of_mem _ h))
    rw [hnone steps (Close this) hmem]

/-! ## C8 -/

theorem sendRequest_connRace :
    sendRequest connRace (pendingOf connRace) reqB.req 3 4 =
      { conn := { connRace with exitChan := 2 }
        result := SendResult.err "Max inflight sustained for more then 20 seconds, fail"
        sleeps := 21
        exitSend := true } := by
  have h : admissionLoop connRace.maxInFlight (pendingOf connRace) 0 = Admission.failed 21 :=
    admissionLoop_fail _ _
      (fun _ _ => (by decide : ((connRace.requests.length : Nat) : Int) > connRace.maxInFlight))
  unfold sendRequest
  rw [h]
  decide

/-- C8, evaluated on the code: the connection is connected, `maxInFlight` is 0, one
transaction stays pending, and the listener already waits on the exit channel.
`sendRequest` sleeps 21 times and calls `Close`, whose send makes it the second
sender waiting.  The event loop takes the exit case once and receives the signal
of the listener (sender 0 of 2); the connection is torn down with one sender, the
caller, still waiting, and no later step receives a signal: whatever follows,
`sendRequest` does not return its error. -/
theorem C8_close_blocks_caller :
    connRace.connected = true ∧ 0 ≤ connRace.maxInFlight ∧
    ((pendingOf connRace 0 : Nat) : Int) > connRace.maxInFlight ∧
    (sendRequest connRace (pendingOf connRace) reqB.req 3 4).sleeps = 21 ∧
    (sendRequest connRace (pendingOf connRace) reqB.req 3 4).exitSend = true ∧
    (sendRequest connRace (pendingOf connRace) reqB.req 3 4).conn.exitChan = 2 ∧
    (step (sendRequest connRace (pendingOf connRace) reqB.req 3 4).conn
      (Step.loop Select.exit)).connected = false ∧
    (step (sendRequest connRace (pendingOf connRace) reqB.req 3 4).conn
      (Step.loop Select.exit)).exitChan = 1 ∧
    (∀ later : List Step,
      exitPoint (step (sendRequest connRace (pendingOf connRace) reqB.req 3 4).conn
        (Step.loop Select.exit)) later = none) ∧
    (∀ later : List Step,
      sendRequestReturns connRace (pendingOf connRace) reqB.req 3 4
        (Step.loop Select.exit :: later) 0 = false) := by
  have hstep : (step (sendRequest connRace (pendingOf connRace) reqB.req 3 4).conn
      (Step.loop Select.exit)).connected = false := by
    rw [sendRequest_connRace]
    decide
  refine ⟨rfl, by decide, by decide, ?_, ?_, ?_, hstep, ?_, ?_, ?_⟩
  · rw [sendRequest_connRace]
  · rw [sendRequest_connRace]
  · rw [sendRequest_connRace]
  · rw [sendRequest_connRace]
    decide
  · intro later
    exact exitPoint_disconnected later hstep
  · intro later
    unfold sendRequestReturns closeReturns
    rw [sendRequest_connRace]
    simp only [if_true]
    rw [exitPoint_exit _ later (by decide) (by decide)]
    decide

/-! ## C9 -/

/-- For every connection created at or before the current time, the skip branch of
`reconnect` is not taken: the old connection is closed and a new one is dialed. -/
theorem reconnect_no_skip (this : JsonClient) (oldconn : ConnRef) (old : cheshireConn)
    (now : Int) (dial : Dial) (h : old.connectedAt ≤ now) :
    (reconnect this oldconn old now dial).skipped = false ∧
    (reconnect this oldconn old now dial).dialed = true ∧
    (reconnect this oldconn old now dial).old = Close old := by
  have hg : ¬ (old.connectedAt > now + fiveSeconds) := by
    unfold fiveSeconds
    omega
  unfold reconnect
  rw [if_neg hg]
  cases dial <;> exact ⟨rfl, rfl, rfl⟩

/-- C9, evaluated on the code: one second after the connection was created,
`reconnect` does not skip; it calls `Close` on the old connection (an exit signal
is sent), dials, and swaps the new connection in. -/
theorem C9_reconnect_within_window :
    conn0.connectedAt ≤ oneSecond ∧ oneSecond < conn0.connectedAt + fiveSeconds ∧
    (reconnect client0 7 conn0 oneSecond (Dial.ok 8)).skipped = false ∧
    (reconnect client0 7 conn0 oneSecond (Dial.ok 8)).dialed = true ∧
    (reconnect client0 7 conn0 oneSecond (Dial.ok 8)).old.exitChan = conn0.exitChan + 1 ∧
    (reconnect client0 7 conn0 oneSecond (Dial.ok 8)).client.conn = 8 ∧
    (reconnect client0 7 conn0 oneSecond (Dial.ok 8)).conn = 8 := by
  decide

/-! ## C10 -/

/-- C10: when the debounce guard does not fire, a failed dial makes `reconnect`
return the old connection with the error and leaves the client unchanged; a
successful dial makes the new connection the client's current one and returns it
with a nil error; so the current connection changes only on success. -/
theorem C10_swap_only_on_success (this : JsonClient) (oldconn : ConnRef)
    (old : cheshireConn) (now : Int) (dial : Dial)
    (hnoskip : ¬ (old.connectedAt > now + fiveSeconds)) :
    (reconnect this oldconn old now dial).skipped = false ∧
    (∀ e, dial = Dial.err e →
      (reconnect this oldconn old now dial).conn = oldconn ∧
      (reconnect this oldconn old now dial).err = some e ∧
      (reconnect this oldconn old now dial).client = this) ∧
    (∀ con, dial = Dial.ok con →
      (reconnect this oldconn old now dial).client.conn = con ∧
      (reconnect this oldconn old now dial).conn = con ∧
      (reconnect this oldconn old now dial).err = none) ∧
    ((reconnect this oldconn old now dial).client.conn ≠ this.conn →
      ∃ con, dial = Dial.ok con) := by
  unfold reconnect
  rw [if_neg hnoskip]
  cases dial with
  | ok c =>
    refine ⟨rfl, ?_, ?_, fun _ => ⟨c, rfl⟩⟩
    · intro e he
      cases he
    · intro con hcon
      cases hcon
      exact ⟨rfl, rfl, rfl⟩
  | err msg =>
    refine ⟨rfl, ?_, ?_, fun hne => absurd rfl hne⟩
    · intro e he
      cases he
      exact ⟨rfl, rfl, rfl⟩
    · intro con hcon
      cases hcon

/-- C10 at a failed dial: the old connection 7 comes back with the error and the
client still points to connection 7. -/
theorem C10_swap_only_on_success_witness :
    ¬ (conn0.connectedAt > oneSecond + fiveSeconds) ∧
    (reconnect client0 7 conn0 oneSecond (Dial.err "connection refused")).conn = 7 ∧
    (reconnect client0 7 conn0 oneSecond (Dial.err "connection refused")).err =
      some "connection refused" ∧
    (reconnect client0 7 conn0 oneSecond (Dial.err "connection refused")).client = client0 :=
  have h := C10_swap_only_on_success client0 7 conn0 oneSecond (Dial.err "connection refused")
    (by decide)
  ⟨by decide, (h.2.1 "connection refused" rfl).1, (h.2.1 "connection refused" rfl).2.1,
    (h.2.1 "connection refused" rfl).2.2⟩

/-! ## C11 -/

/-- C11: whatever the `select` of `doApiCallSync` receives first, `ApiCallSync`
returns either a response with a nil error or no response with an error, never
both and never neither; and when the timer expires before anything arrived it
returns the "Request timeout" error and no response, whatever arrives on the two
channels afterwards. -/
theorem C11_sync_result_exclusive (conn : ConnRef) (arrivals : List Arrival)
    (beforeTimer : Nat) :
    ((∃ r, ApiCallSync conn arrivals beforeTimer = (some r, none)) ∨
     (∃ e, ApiCallSync conn arrivals beforeTimer = (none, some e))) ∧
    (∀ r, firstReady arrivals beforeTimer = Race.response r →
      ApiCallSync conn arrivals beforeTimer = (some r, none)) ∧
    (∀ e, firstReady arrivals beforeTimer = Race.error e →
      ApiCallSync conn arrivals beforeTimer = (none, some e)) ∧
    (firstReady arrivals beforeTimer = Race.timeout →
      ApiCallSync conn arrivals beforeTimer = (none, some "Request timeout")) ∧
    firstReady arrivals 0 = Race.timeout ∧
    ApiCallSync conn arrivals 0 = (none, some "Request timeout") := by
  have h0 : firstReady arrivals 0 = Race.timeout := by
    simp [firstReady]
  refine ⟨?_, ?_, ?_, ?_, h0, ?_⟩
  · unfold ApiCallSync doApiCallSync
    cases firstReady arrivals beforeTimer with
    | response r => exact Or.inl ⟨r, rfl⟩
    | error e => exact Or.inr ⟨e, rfl⟩
    | timeout => exact Or.inr ⟨_, rfl⟩
  · intro r hr
    unfold ApiCallSync doApiCallSync
    rw [hr]
  · intro e he
    unfold ApiCallSync doApiCallSync
    rw [he]
  · intro ht
    unfold ApiCallSync doApiCallSync
    rw [ht]
  · unfold ApiCallSync doApiCallSync
    rw [h0]

/-- A late response does not change the outcome of a call whose timer expired
first, and a response that comes before the timer is returned. -/
theorem ApiCallSync_examples :
    ApiCallSync 7 [Arrival.response { txnId := "go1", txnStatus := "completed" }] 0 =
      (none, some "Request timeout") ∧
    ApiCallSync 7 [Arrival.response { txnId := "go1", txnStatus := "completed" }] 1 =
      (some { txnId := "go1", txnStatus := "completed" }, none) ∧
    ApiCallSync 7 (arrivalsOn 1 2 (run conn0 steps0).trace) 1 =
      (some { txnId := "go1", txnStatus := "completed" }, none) := by
  decide

/-! ## Lemmas on the channels of one call -/

theorem errorsOn_append (ec : Chan) (a b : List Event) :
    errorsOn ec (a ++ b) = errorsOn ec a + errorsOn ec b := by
  simp [errorsOn, List.countP_append]

theorem errorsOn_error (ec ch : Chan) (msg : String) :
    errorsOn ec [Event.error ch msg] = if ch = ec then 1 else 0 := by
  by_cases h : ch = ec <;> simp [errorsOn, List.countP_cons, h]

theorem errorsOn_result (ec ch : Chan) (r : Response) :
    errorsOn ec [Event.result ch r] = 0 := by
  simp [errorsOn, List.countP_cons]

theorem errorsOn_wrote (ec : Chan) (r : Request) : errorsOn ec [Event.wrote r] = 0 := by
  simp [errorsOn, List.countP_cons]

theorem errorsOn_streamClosed (ec : Chan) : errorsOn ec [Event.streamClosed] = 0 := by
  simp [errorsOn, List.countP_cons]

theorem errorsOn_disconnected (ec : Chan) : errorsOn ec [Event.disconnected] = 0 := by
  simp [errorsOn, List.countP_cons]

theorem errorsOn_map_queue (ec : Chan) (err : String) (q : List cheshireRequest) :
    errorsOn ec (q.map (fun r => Event.error r.errorChan err)) =
      q.countP (fun x => decide (x.errorChan = ec)) := by
  induction q with
  | nil => rfl
  | cons r rest ih =>
    have hc : errorsOn ec (Event.error r.errorChan err ::
        rest.map (fun r => Event.error r.errorChan err)) =
        errorsOn ec [Event.error r.errorChan err] +
        errorsOn ec (rest.map (fun r => Event.error r.errorChan err)) :=
      errorsOn_append ec [Event.error r.errorChan err] _
    rw [List.map_cons, hc, ih, errorsOn_error, List.countP_cons]
    by_cases h : r.errorChan = ec
    · simp [h]; omega
    · simp [h]

theorem completedOn_append (rc : Chan) (a b : List Event) :
    completedOn rc (a ++ b) ↔ completedOn rc a ∨ completedOn rc b := by
  constructor
  · rintro ⟨r, hr, hmem⟩
    rcases List.mem_append.mp hmem with h | h
    · exact Or.inl ⟨r, hr, h⟩
    · exact Or.inr ⟨r, hr, h⟩
  · rintro (⟨r, hr, hmem⟩ | ⟨r, hr, hmem⟩)
    · exact ⟨r, hr, List.mem_append_left _ hmem⟩
    · exact ⟨r, hr, List.mem_append_right _ hmem⟩

theorem completedOn_cleanup (rc : Chan) (s : cheshireConn) :
    completedOn rc (cleanup s).trace ↔ completedOn rc s.trace := by
  constructor
  · rintro ⟨r, hr, hmem⟩
    exact ⟨r, hr, (cleanup_result_mem s rc r).mp hmem⟩
  · rintro ⟨r, hr, hmem⟩
    exact ⟨r, hr, (cleanup_result_mem s rc r).mpr hmem⟩

theorem countP_mapDelete_le (p : cheshireRequest → Bool) (m : RequestMap) (k : String) :
    ((mapDelete m k).map Prod.snd).countP p ≤ (m.map Prod.snd).countP p := by
  induction m with
  | nil => simp [mapDelete]
  | cons e rest ih =>
    obtain ⟨k', v⟩ := e
    simp only [mapDelete]
    split
    · simp only [List.map_cons, List.countP_cons]
      omega
    · simp only [List.map_cons, List.countP_cons]
      omega

theorem countP_mapDelete_found (p : cheshireRequest → Bool) (m : RequestMap) (k : String)
    (v : cheshireRequest) (hget : mapGet m k = some v) (hp : p v = true) :
    ((mapDelete m k).map Prod.snd).countP p + 1 ≤ (m.map Prod.snd).countP p := by
  induction m with
  | nil => simp [mapGet] at hget
  | cons e rest ih =>
    obtain ⟨k', v'⟩ := e
    simp only [mapGet] at hget
    simp only [mapDelete]
    split at hget
    · rename_i hk
      cases hget
      rw [if_pos hk]
      have := countP_mapDelete_le p rest k
      simp only [List.map_cons, List.countP_cons, hp, if_true]
      omega
    · rename_i hk
      rw [if_neg hk]
      have := ih hget
      simp only [List.map_cons, List.countP_cons]
      omega

theorem errorsOn_rangeClear (ec : Chan) (err : String) (snap m : RequestMap)
    (tr : List Event) :
    errorsOn ec (rangeClear err snap (m, tr)).2 ≤
      errorsOn ec tr + (snap.map Prod.snd).countP (fun x => decide (x.errorChan = ec)) := by
  induction snap generalizing m tr with
  | nil => simp [rangeClear]
  | cons e rest ih =>
    obtain ⟨k, v⟩ := e
    simp only [rangeClear]
    split
    · have := ih m tr
      simp only [List.map_cons, List.countP_cons]
      omega
    · have := ih (mapDelete m k) (tr ++ [Event.error v.errorChan err])
      rw [errorsOn_append, errorsOn_error] at this
      simp only [List.map_cons, List.countP_cons]
      by_cases h : v.errorChan = ec
      · simp only [h, if_true, decide_True] at this ⊢
        omega
      · simp only [h, if_false, decide_False] at this ⊢
        simp only [Bool.false_eq_true, if_false]
        omega

theorem errorsOn_cleanup (ec : Chan) (s : cheshireConn) :
    errorsOn ec (cleanup s).trace ≤ errorsOn ec s.trace +
      s.outgoingChan.countP (fun x => decide (x.errorChan = ec)) +
      (s.requests.map Prod.snd).countP (fun x => decide (x.errorChan = ec)) := by
  have h := errorsOn_rangeClear ec (closedErr s.addr) s.requests s.requests
    (drainOutgoing (closedErr s.addr) s.outgoingChan (s.trace ++ [Event.streamClosed]))
  rw [drainOutgoing_eq, errorsOn_append, errorsOn_append, errorsOn_streamClosed,
    errorsOn_map_queue] at h
  simp only [cleanup, errorsOn_append, errorsOn_disconnected]
  rw [drainOutgoing_eq]
  omega

theorem OwnChannels_of_le {rc ec : Chan} {s s' : cheshireConn}
    {F F' : List cheshireRequest} (h : OwnChannels rc ec s F)
    (hmem : ∀ x, (x ∈ s'.outgoingChan ∨ x ∈ s'.requests.map Prod.snd ∨ x ∈ F') →
      (x ∈ s.outgoingChan ∨ x ∈ s.requests.map Prod.snd ∨ x ∈ F))
    (hle : waitingOn ec s' F' + errorsOn ec s'.trace ≤ waitingOn ec s F + errorsOn ec s.trace)
    (hdone : completedOn rc s'.trace → completedOn rc s.trace ∨
      waitingOn ec s' F' + errorsOn ec s'.trace = 0) :
    OwnChannels rc ec s' F' := by
  obtain ⟨h1, h2, h3⟩ := h
  refine ⟨fun x hx => h1 x (hmem x hx), le_trans hle h2, ?_⟩
  intro hc
  rcases hdone hc with hc' | h0
  · have := h3 hc'
    omega
  · exact h0

theorem mem_values_mapDelete {m : RequestMap} {k : String} {x : cheshireRequest}
    (h : x ∈ (mapDelete m k).map Prod.snd) : x ∈ m.map Prod.snd := by
  obtain ⟨e, he, rfl⟩ := List.mem_map.mp h
  exact List.mem_map.mpr ⟨e, (mem_mapDelete he).1, rfl⟩

theorem OwnChannels_eventLoopBody {rc ec : Chan} {s : cheshireConn}
    {F : List cheshireRequest} (h : OwnChannels rc ec s F) (sel : Select) :
    OwnChannels rc ec (eventLoopBody s sel) F := by
  cases sel with
  | outgoing marshalOk writeOk =>
    simp only [eventLoopBody]
    cases hq : s.outgoingChan with
    | nil => exact h
    | cons request rest =>
      have hcount := countP_mapDelete_le (fun x => decide (x.errorChan = ec)) s.requests
        request.req.txnId
      have hmem : ∀ x, (x ∈ rest ∨ x ∈ (mapSet s.requests request.req.txnId request).map
          Prod.snd ∨ x ∈ F) → (x ∈ s.outgoingChan ∨ x ∈ s.requests.map Prod.snd ∨ x ∈ F) := by
        intro x hx
        rcases hx with hx | hx | hx
        · exact Or.inl (by rw [hq]; exact List.mem_cons_of_mem _ hx)
        · simp only [mapSet, List.map_cons, List.mem_cons] at hx
          rcases hx with rfl | hx
          · exact Or.inl (by rw [hq]; exact List.mem_cons_self _ _)
          · exact Or.inr (Or.inl (mem_values_mapDelete hx))
        · exact Or.inr (Or.inr hx)
      simp only
      split
      · refine OwnChannels_of_le h hmem ?_ ?_
        · simp only [waitingOn, hq, mapSet, List.map_cons, List.countP_cons, errorsOn_append,
            errorsOn_wrote]
          omega
        · intro hc
          rcases (completedOn_append rc _ _).mp hc with hc | ⟨r, _, hmem⟩
          · exact Or.inl hc
          · simp at hmem
      · refine OwnChannels_of_le h hmem ?_ (fun hc => Or.inl hc)
        simp only [waitingOn, hq, mapSet, List.map_cons, List.countP_cons]
        omega
  | incoming =>
    simp only [eventLoopBody]
    cases hq : s.incomingChan with
    | nil => exact h
    | cons response rest =>
      simp only
      cases hget : mapGet s.requests response.txnId with
      | none => exact h
      | some req =>
        have hreq : req ∈ s.requests.map Prod.snd :=
          List.mem_map.mpr ⟨_, mapGet_mem hget, rfl⟩
        have hle := countP_mapDelete_le (fun x => decide (x.errorChan = ec)) s.requests
          response.txnId
        simp only
        split
        · rename_i hst
          refine OwnChannels_of_le h ?_ ?_ ?_
          · intro x hx
            rcases hx with hx | hx | hx
            · exact Or.inl hx
            · exact Or.inr (Or.inl (mem_values_mapDelete hx))
            · exact Or.inr (Or.inr hx)
          · simp only [waitingOn, errorsOn_append, errorsOn_result]
            omega
          · intro hc
            rcases (completedOn_append rc _ _).mp hc with hc | ⟨r, _, hmem⟩
            · exact Or.inl hc
            · right
              simp only [List.mem_singleton] at hmem
              injection hmem with hch hr
              have hec : req.errorChan = ec := h.1 req (Or.inr (Or.inl hreq)) hch.symm
              have hfound := countP_mapDelete_found (fun x => decide (x.errorChan = ec))
                s.requests response.txnId req hget (by simp [hec])
              have h2 := h.2.1
              simp only [waitingOn] at h2
              simp only [waitingOn, errorsOn_append, errorsOn_result]
              omega
        · rename_i hst
          refine OwnChannels_of_le h (fun x hx => hx) ?_ ?_
          · simp only [waitingOn, errorsOn_append, errorsOn_result]
            omega
          · intro hc
            rcases (completedOn_append rc _ _).mp hc with hc | ⟨r, hr, hmem⟩
            · exact Or.inl hc
            · simp only [List.mem_singleton] at hmem
              injection hmem with hch hr'
              subst hr'
              exact absurd hr hst
  | exit =>
    simp only [eventLoopBody]
    split
    · exact h
    · exact OwnChannels_of_le h (fun x hx => hx) (le_refl _) (fun hc => Or.inl hc)

theorem OwnChannels_cleanup {rc ec : Chan} {s : cheshireConn}
    {F : List cheshireRequest} (h : OwnChannels rc ec s F) :
    OwnChannels rc ec (cleanup s) F := by
  refine OwnChannels_of_le h ?_ ?_ ?_
  · intro x hx
    rcases hx with hx | hx | hx
    · simp [cleanup] at hx
    · rw [cleanup_requests] at hx
      simp at hx
    · exact Or.inr (Or.inr hx)
  · have he := errorsOn_cleanup ec s
    simp only [waitingOn, cleanup_requests]
    have hq : (cleanup s).outgoingChan = [] := rfl
    rw [hq]
    simp only [List.countP_nil, List.map_nil]
    omega
  · intro hc
    exact Or.inl ((completedOn_cleanup rc s).mp hc)

theorem OwnChannels_step {rc ec : Chan} {s : cheshireConn} (st : Step) (rest : List Step)
    (h : OwnChannels rc ec s (sendsOf (st :: rest))) :
    OwnChannels rc ec (step s st) (sendsOf rest) := by
  cases st with
  | send r =>
    refine OwnChannels_of_le h ?_ ?_ (fun hc => Or.inl hc)
    · intro x hx
      simp only [step, List.mem_append, List.mem_singleton] at hx
      simp only [sendsOf, List.mem_cons]
      rcases hx with (hx | hx) | hx | hx
      · exact Or.inl hx
      · exact Or.inr (Or.inr (Or.inl hx))
      · exact Or.inr (Or.inl hx)
      · exact Or.inr (Or.inr (Or.inr hx))
    · simp only [waitingOn, step, sendsOf, List.countP_append, List.countP_cons,
        List.countP_nil]
      omega
  | read res => exact h
  | listenerExit => exact h
  | close =>
    simp only [step, Close]
    split
    · exact h
    · exact h
  | loop sel =>
    have h' : OwnChannels rc ec s (sendsOf rest) := h
    simp only [step, eventLoopIter]
    split
    · split
      · exact OwnChannels_eventLoopBody h' sel
      · exact OwnChannels_cleanup (OwnChannels_eventLoopBody h' sel)
    · exact h'

theorem OwnChannels_run {rc ec : Chan} (steps : List Step) {s : cheshireConn}
    (h : OwnChannels rc ec s (sendsOf steps)) :
    OwnChannels rc ec (run s steps) [] := by
  induction steps generalizing s with
  | nil => exact h
  | cons st rest ih =>
    simp only [run, List.foldl_cons]
    exact ih (OwnChannels_step st rest h)

theorem OwnChannels_doApiCall (conn : cheshireConn) (strestId : Int) (pending : Nat → Nat)
    (req : Request) (rc ec : Chan) (F : List cheshireRequest)
    (hfresh : ∀ x, (x ∈ conn.outgoingChan ∨ x ∈ conn.requests.map Prod.snd ∨ x ∈ F) →
      x.resultChan ≠ rc ∧ x.errorChan ≠ ec)
    (herr : errorsOn ec conn.trace = 0)
    (hres : ∀ r, Event.result rc r ∉ conn.trace) :
    OwnChannels rc ec (doApiCall conn strestId pending req rc ec).conn F := by
  have hcq : conn.outgoingChan.countP (fun x => decide (x.errorChan = ec)) = 0 := by
    rw [List.countP_eq_zero]
    intro x hx
    simpa using (hfresh x (Or.inl hx)).2
  have hcm : (conn.requests.map Prod.snd).countP (fun x => decide (x.errorChan = ec)) = 0 := by
    rw [List.countP_eq_zero]
    intro x hx
    simpa using (hfresh x (Or.inr (Or.inl hx))).2
  have hcf : F.countP (fun x => decide (x.errorChan = ec)) = 0 := by
    rw [List.countP_eq_zero]
    intro x hx
    simpa using (hfresh x (Or.inr (Or.inr hx))).2
  have hnot : ¬ completedOn rc conn.trace := fun ⟨r, _, hmem⟩ => hres r hmem
  have hnot2 : ∀ msg, ¬ completedOn rc (conn.trace ++ [Event.error ec msg]) := by
    intro msg hc
    rcases (completedOn_append rc _ _).mp hc with hc | ⟨r, _, hmem⟩
    · exact hnot hc
    · simp at hmem
  have hold : ∀ x, (x ∈ conn.outgoingChan ∨ x ∈ conn.requests.map Prod.snd ∨ x ∈ F) →
      x.resultChan = rc → x.errorChan = ec :=
    fun x hx hrc => absurd hrc (hfresh x hx).1
  unfold doApiCall
  cases hc : conn.connected with
  | false =>
    refine ⟨hold, ?_, fun hcomp => absurd hcomp (hnot2 _)⟩
    simp only [Bool.not_false, if_true, waitingOn, hcq, hcm, hcf, errorsOn_append, herr,
      errorsOn_error]
    simp
  | true =>
    simp only [Bool.not_true, Bool.false_eq_true, if_false]
    unfold sendRequest
    rcases admissionLoop_cases conn.maxInFlight pending 21 0 (by omega) with ⟨n, _, _, h3⟩ | h
    · rw [h3]
      simp only [hc, Bool.not_true, Bool.false_eq_true, if_false]
      refine ⟨?_, ?_, fun hcomp => absurd hcomp hnot⟩
      · intro x hx hrc
        simp only [step, List.mem_append, List.mem_singleton] at hx
        rcases hx with (hx | rfl) | hx | hx
        · exact hold x (Or.inl hx) hrc
        · rfl
        · exact hold x (Or.inr (Or.inl hx)) hrc
        · exact hold x (Or.inr (Or.inr hx)) hrc
      · simp only [waitingOn, step, List.countP_append, hcq, hcm, hcf, herr]
        simp
    · rw [h]
      have hclose : Close conn = { conn with exitChan := conn.exitChan + 1 } := by
        simp [Close, hc]
      simp only [hclose]
      refine ⟨hold, ?_, fun hcomp => absurd hcomp (hnot2 _)⟩
      simp only [waitingOn, hcq, hcm, hcf, errorsOn_append, herr, errorsOn_error]
      simp

/-! ## C12 -/

theorem doApiCall_reqStream :
    (doApiCall conn0 0 (pendingOf conn0) reqStream 1 2).conn =
      { conn0 with outgoingChan := [{ req := { reqStream with txnId := "go1" },
                                      resultChan := 1, errorChan := 2 }] } := by
  have h : admissionLoop conn0.maxInFlight (pendingOf conn0) 0 = Admission.admitted 0 :=
    admissionLoop_pass _ _ _ (by decide)
  unfold doApiCall sendRequest
  rw [h]
  decide

/-- C12 fails as stated: a request submitted through `doApiCall` gets a response
of status `continue` on its result channel, and when the connection is torn down
afterwards the same attempt gets the "Connection is closed" error on its error
channel. -/
theorem C12_result_then_error_counterexample :
    (run (doApiCall conn0 0 (pendingOf conn0) reqStream 1 2).conn stepsStream).trace =
      [Event.wrote { reqStream with txnId := "go1" },
       Event.result 1 { txnId := "go1", txnStatus := "continue" },
       Event.streamClosed,
       Event.error 2 "Connection is closed localhost:8009",
       Event.disconnected] := by
  rw [doApiCall_reqStream]
  decide

/-- C12 as amended: for a request submitted through `doApiCall` on channels of its
own (no other request queued, pending or sent later uses them, and nothing was
sent on them before) and for every sequence of connection steps that follows, the
error channel receives at most one error, and if a response of status `completed`
is delivered to the result channel then the error channel receives no error. -/
theorem C12_at_most_one_error (conn : cheshireConn) (strestId : Int) (pending : Nat → Nat)
    (req : Request) (responseChan errorChan : Chan) (steps : List Step)
    (hfresh : ∀ x, (x ∈ conn.outgoingChan ∨ x ∈ conn.requests.map Prod.snd ∨
      x ∈ sendsOf steps) → x.resultChan ≠ responseChan ∧ x.errorChan ≠ errorChan)
    (herr : errorsOn errorChan conn.trace = 0)
    (hres : ∀ r, Event.result responseChan r ∉ conn.trace) :
    errorsOn errorChan
      (run (doApiCall conn strestId pending req responseChan errorChan).conn steps).trace ≤ 1 ∧
    (completedOn responseChan
      (run (doApiCall conn strestId pending req responseChan errorChan).conn steps).trace →
     errorsOn errorChan
      (run (doApiCall conn strestId pending req responseChan errorChan).conn steps).trace = 0) := by
  have h0 := OwnChannels_doApiCall conn strestId pending req responseChan errorChan
    (sendsOf steps) hfresh herr hres
  have h := OwnChannels_run steps h0
  refine ⟨?_, fun hc => ?_⟩
  · have := h.2.1
    omega
  · have := h.2.2 hc
    omega

/-- C12 as amended, on the streaming run: one error and no completed response;
and on a run where the response has status `completed` before the teardown: no
error. -/
theorem C12_at_most_one_error_witness :
    errorsOn 2 (run (doApiCall conn0 0 (pendingOf conn0) reqStream 1 2).conn
      stepsStream).trace = 1 ∧
    (errorsOn 2 (run (doApiCall conn0 0 (pendingOf conn0) reqStream 1 2).conn
      stepsStream).trace ≤ 1 ∧
    (completedOn 1 (run (doApiCall conn0 0 (pendingOf conn0) reqStream 1 2).conn
      stepsStream).trace →
     errorsOn 2 (run (doApiCall conn0 0 (pendingOf conn0) reqStream 1 2).conn
      stepsStream).trace = 0)) :=
  ⟨by rw [doApiCall_reqStream]; decide,
   C12_at_most_one_error conn0 0 (pendingOf conn0) reqStream 1 2 stepsStream
    (by intro x hx; simp [conn0, stepsStream, sendsOf] at hx) (by decide)
    (by intro r; simp [conn0])⟩

/-! ## C13 -/

/-- C13, evaluated on the code: after a failed ping on the live connection 0 the
client closes it and makes connection 1 current; the disconnect notification of
connection 0 then triggers a reconnect for a connection that is no longer current,
which makes connection 2 current without calling `Close` on connection 1.  Two
connections are open, and connection 1 is not current, was never closed and is
not torn down. -/
theorem C13_stale_reconnect_leaks :
    (worldRun world0 stepsStale).client.conn = 2 ∧
    (worldRun world0 stepsStale).conns.map isOpen = [false, true, true] ∧
    (worldRun world0 stepsStale).conns.map (fun c => c.exitChan) = [0, 0, 0] ∧
    (worldRun world0 stepsStale).conns.map (fun c => c.connected) = [false, true, true] ∧
    (worldRun world0 stepsStale).conns.map (fun c => decide (Event.streamClosed ∈ c.trace)) =
      [true, false, false] := by
  decide

/-! ## C14 -/

theorem matchClassPlus_iff (cls : Char → Bool) (s : List Char) :
    matchClassPlus cls s = true ↔ ∃ c ∈ s, cls c = true := by
  induction s with
  | nil => simp [matchClassPlus]
  | cons c rest ih =>
    simp only [matchClassPlus]
    split
    · rename_i hc
      simp [hc]
    · rename_i hc
      simp [ih, hc]

/-- What `toVal` verifies for an input that is neither quoted nor a boolean: it
accepts the trimmed string as soon as one of its characters is in the date
class, and rejects it otherwise. -/
theorem toVal_accepts_iff (str : String)
    (hq : (TrimSpace str.toList).head? ≠ some '"')
    (ht : EqualFold (TrimSpace str.toList) "true".toList = false)
    (hf : EqualFold (TrimSpace str.toList) "false".toList = false) :
    ((∃ c ∈ TrimSpace str.toList, dateClass c = true) →
      toVal str = (Val.str (String.mk (TrimSpace str.toList)), true)) ∧
    ((¬ ∃ c ∈ TrimSpace str.toList, dateClass c = true) →
      toVal str = (Val.str "", false)) := by
  have hnd : ∀ c, numberClass c = true → dateClass c = true := by
    intro c hc
    simp only [numberClass, dateClass, Bool.or_eq_true] at hc ⊢
    rcases hc with (hc | hc) | hc
    · exact Or.inl (Or.inl (Or.inl (Or.inl hc)))
    · exact Or.inl (Or.inl (Or.inl (Or.inr hc)))
    · exact Or.inl (Or.inl (Or.inr hc))
  constructor
  · intro hex
    have hd := (matchClassPlus_iff dateClass _).mpr hex
    simp only [toVal, if_neg hq, ht, hf, Bool.false_eq_true, if_false, hd, if_true]
    split <;> rfl
  · intro hex
    have hd : matchClassPlus dateClass (TrimSpace str.toList) = false := by
      rw [Bool.eq_false_iff]
      exact fun h => hex ((matchClassPlus_iff dateClass _).mp h)
    have hn : matchClassPlus numberClass (TrimSpace str.toList) = false := by
      rw [Bool.eq_false_iff]
      intro h
      obtain ⟨c, hc, hcn⟩ := (matchClassPlus_iff numberClass _).mp h
      exact hex ⟨c, hc, hnd c hcn⟩
    simp only [toVal, if_neg hq, ht, hf, Bool.false_eq_true, if_false, hd, hn]

/-- C14, evaluated on the code: the input `abc1` is not quoted, is not a boolean
and is not a number or date token, yet `toVal` returns it with ok = true; so does
the input ` x-y `, returned trimmed. -/
theorem C14_accepts_non_token :
    (TrimSpace "abc1".toList).head? ≠ some '"' ∧
    EqualFold (TrimSpace "abc1".toList) "true".toList = false ∧
    EqualFold (TrimSpace "abc1".toList) "false".toList = false ∧
    isToken (TrimSpace "abc1".toList) = false ∧
    isNumberToken (TrimSpace "abc1".toList) = false ∧
    toVal "abc1" = (Val.str "abc1", true) ∧
    isToken (TrimSpace " x-y ".toList) = false ∧
    toVal " x-y " = (Val.str "x-y", true) ∧
    toVal "12.5" = (Val.str "12.5", true) ∧
    toVal "abc" = (Val.str "", false) := by
  decide

/-! ## Lemmas on rune decoding -/

theorem leadInfo_spec (s0 sz lo hi : Nat) (h : leadInfo s0 = some (sz, lo, hi)) :
    0x80 ≤ lo ∧ hi ≤ 0xBF ∧ (sz = 2 ∨ sz = 3 ∨ sz = 4) ∧
    (sz = 2 → 2 ≤ s0 % 32) ∧
    (sz = 3 → 1 ≤ s0 % 16 ∨ 0xA0 ≤ lo) ∧
    (sz = 4 → 1 ≤ s0 % 8 ∨ 0x90 ≤ lo) := by
  unfold leadInfo at h
  split_ifs at h <;> simp only [Option.some.injEq, Prod.mk.injEq] at h <;>
    obtain ⟨rfl, rfl, rfl⟩ := h <;> refine ⟨by omega, by omega, by omega, ?_, ?_, ?_⟩ <;>
    omega

theorem DecodeRuneInString_high (b : Nat) (rest : List Nat) (hb : ¬ b < 0x80) :
    0x80 ≤ (DecodeRuneInString (b :: rest)).1 ∧
    1 ≤ (DecodeRuneInString (b :: rest)).2 ∧
    (DecodeRuneInString (b :: rest)).2 ≤ (b :: rest).length ∧
    ∀ x ∈ (b :: rest).take (DecodeRuneInString (b :: rest)).2, 0x80 ≤ x := by
  have hone : 0x80 ≤ (RuneError, 1).1 ∧ 1 ≤ (RuneError, 1).2 ∧
      (RuneError, 1).2 ≤ (b :: rest).length ∧
      ∀ x ∈ (b :: rest).take (RuneError, 1).2, 0x80 ≤ x := by
    refine ⟨by decide, le_refl _, by simp, ?_⟩
    intro x hx
    simp at hx
    omega
  unfold DecodeRuneInString
  simp only [if_neg hb]
  cases hl : leadInfo b with
  | none => exact hone
  | some info =>
    obtain ⟨sz, lo, hi⟩ := info
    obtain ⟨hlo, hhi, hsz, h2, h3, h4⟩ := leadInfo_spec b sz lo hi hl
    simp only
    split
    · exact hone
    · rename_i hlen
      cases rest with
      | nil => exact hone
      | cons s1 rest1 =>
        simp only
        split
        · exact hone
        · rename_i h1
          split
          · refine ⟨?_, by omega, by simp, ?_⟩
            · have := h2 (by omega)
              simp only
              omega
            · intro x hx
              simp at hx
              omega
          · rename_i hsz2
            cases rest1 with
            | nil => exact hone
            | cons s2 rest2 =>
              simp only
              split
              · exact hone
              · rename_i h2'
                split
                · refine ⟨?_, by omega, by simp, ?_⟩
                  · have := h3 (by omega)
                    simp only
                    omega
                  · intro x hx
                    simp at hx
                    omega
                · rename_i hsz3
                  cases rest2 with
                  | nil => exact hone
                  | cons s3 rest3 =>
                    simp only
                    split
                    · exact hone
                    · rename_i h3'
                      refine ⟨?_, by omega, by simp, ?_⟩
                      · have := h4 (by omega)
                        simp only
                        omega
                      · intro x hx
                        simp at hx
                        omega

/-- A decoded rune is a bracket exactly when the byte at the position is that
bracket; the width is at least 1 and stays inside the string; and when the byte is
no bracket, none of the bytes the rune spans is one. -/
theorem DecodeRuneInString_spec (b : Nat) (rest : List Nat) :
    ((DecodeRuneInString (b :: rest)).1 = openBracket ↔ b = openBracket) ∧
    ((DecodeRuneInString (b :: rest)).1 = closeBracket ↔ b = closeBracket) ∧
    1 ≤ (DecodeRuneInString (b :: rest)).2 ∧
    (DecodeRuneInString (b :: rest)).2 ≤ (b :: rest).length ∧
    (b ≠ openBracket → b ≠ closeBracket →
      ∀ x ∈ (b :: rest).take (DecodeRuneInString (b :: rest)).2,
        x ≠ openBracket ∧ x ≠ closeBracket) := by
  by_cases hb : b < 0x80
  · have hd : DecodeRuneInString (b :: rest) = (b, 1) := by
      simp [DecodeRuneInString, hb]
    rw [hd]
    refine ⟨Iff.rfl, Iff.rfl, le_refl _, by simp, ?_⟩
    intro h1 h2 x hx
    simp at hx
    subst hx
    exact ⟨h1, h2⟩
  · obtain ⟨hr, hw1, hw2, hall⟩ := DecodeRuneInString_high b rest hb
    unfold openBracket closeBracket
    refine ⟨⟨fun h => by omega, fun h => by omega⟩, ⟨fun h => by omega, fun h => by omega⟩,
      hw1, hw2, ?_⟩
    intro _ _ x hx
    have := hall x hx
    omega

/-! ## Lemmas on bracket matching -/

theorem closeOffset_decomp (l : List Nat) (e d : Nat) :
    closeOffset l (e + d + 1) =
      (closeOffset l e).bind (fun k => (closeOffset (l.drop k) d).map (fun j => k + j)) := by
  induction l generalizing e with
  | nil => rfl
  | cons b rest ih =>
    by_cases hbo : b = openBracket
    · have h1 : closeOffset (b :: rest) (e + d + 1) =
          (closeOffset rest (e + 1 + d + 1)).map (· + 1) := by
        simp only [closeOffset, if_pos hbo]
        congr 2
        omega
      have h2 : closeOffset (b :: rest) e = (closeOffset rest (e + 1)).map (· + 1) := by
        simp only [closeOffset, if_pos hbo]
      rw [h1, h2, ih (e + 1)]
      cases closeOffset rest (e + 1) with
      | none => rfl
      | some k =>
        simp only [Option.map_some', Option.some_bind, List.drop_succ_cons, Option.map_map]
        congr 1
        funext j
        simp only [Function.comp]
        omega
    · by_cases hbc : b = closeBracket
      · cases e with
        | zero =>
          have h1 : closeOffset (b :: rest) (0 + d + 1) = (closeOffset rest d).map (· + 1) := by
            simp only [closeOffset, if_neg hbo, if_pos hbc, Nat.zero_add]
          have h2 : closeOffset (b :: rest) 0 = some 1 := by
            simp only [closeOffset, if_neg hbo, if_pos hbc]
          rw [h1, h2]
          simp only [Option.some_bind, List.drop_succ_cons, List.drop_zero]
          congr 1
          funext j
          omega
        | succ e' =>
          have h1 : closeOffset (b :: rest) (e' + 1 + d + 1) =
              (closeOffset rest (e' + d + 1)).map (· + 1) := by
            have : e' + 1 + d + 1 = (e' + d + 1) + 1 := by omega
            rw [this]
            simp only [closeOffset, if_neg hbo, if_pos hbc]
          have h2 : closeOffset (b :: rest) (e' + 1) = (closeOffset rest e').map (· + 1) := by
            simp only [closeOffset, if_neg hbo, if_pos hbc]
          rw [h1, h2, ih e']
          cases closeOffset rest e' with
          | none => rfl
          | some k =>
            simp only [Option.map_some', Option.some_bind, List.drop_succ_cons, Option.map_map]
            congr 1
            funext j
            simp only [Function.comp]
            omega
      · have h1 : closeOffset (b :: rest) (e + d + 1) =
            (closeOffset rest (e + d + 1)).map (· + 1) := by
          simp only [closeOffset, if_neg hbo, if_neg hbc]
        have h2 : closeOffset (b :: rest) e = (closeOffset rest e).map (· + 1) := by
          simp only [closeOffset, if_neg hbo, if_neg hbc]
        rw [h1, h2, ih e]
        cases closeOffset rest e with
        | none => rfl
        | some k =>
          simp only [Option.map_some', Option.some_bind, List.drop_succ_cons, Option.map_map]
          congr 1
          funext j
          simp only [Function.comp]
          omega

theorem directPairs_decomp (l : List Nat) (e : Nat) :
    directPairs l (e + 1) =
      match closeOffset l e with
      | some k => directPairs (l.drop k) 0
      | none => 0 := by
  induction l generalizing e with
  | nil => rfl
  | cons b rest ih =>
    by_cases hbo : b = openBracket
    · have h1 : directPairs (b :: rest) (e + 1) = directPairs rest (e + 1 + 1) := by
        simp only [directPairs, if_pos hbo]
        simp
      have h2 : closeOffset (b :: rest) e = (closeOffset rest (e + 1)).map (· + 1) := by
        simp only [closeOffset, if_pos hbo]
      rw [h1, h2, ih (e + 1)]
      cases closeOffset rest (e + 1) with
      | none => rfl
      | some k => simp
    · by_cases hbc : b = closeBracket
      · cases e with
        | zero =>
          simp only [directPairs, closeOffset, if_neg hbo, if_pos hbc, Nat.zero_add,
            List.drop_succ_cons, List.drop_zero]
        | succ e' =>
          have h1 : directPairs (b :: rest) (e' + 1 + 1) = directPairs rest (e' + 1) := by
            simp only [directPairs, if_neg hbo, if_pos hbc]
          have h2 : closeOffset (b :: rest) (e' + 1) = (closeOffset rest e').map (· + 1) := by
            simp only [closeOffset, if_neg hbo, if_pos hbc]
          rw [h1, h2, ih e']
          cases closeOffset rest e' with
          | none => rfl
          | some k => simp
      · have h1 : directPairs (b :: rest) (e + 1) = directPairs rest (e + 1) := by
          simp only [directPairs, if_neg hbo, if_neg hbc]
        have h2 : closeOffset (b :: rest) e = (closeOffset rest e).map (· + 1) := by
          simp only [closeOffset, if_neg hbo, if_neg hbc]
        rw [h1, h2, ih e]
        cases closeOffset rest e with
        | none => rfl
        | some k => simp

theorem closeOffset_skip (w : Nat) (l : List Nat) (d : Nat) (hw : w ≤ l.length)
    (h : ∀ x ∈ l.take w, x ≠ openBracket ∧ x ≠ closeBracket) :
    closeOffset l d = (closeOffset (l.drop w) d).map (fun k => k + w) := by
  induction w generalizing l with
  | zero => simp
  | succ w ih =>
    cases l with
    | nil => simp at hw
    | cons b rest =>
      have hb := h b (by simp)
      have hrest := ih rest (by simpa using hw) (fun x hx => h x (by simp [hx]))
      simp only [closeOffset, if_neg hb.1, if_neg hb.2, List.drop_succ_cons]
      rw [hrest]
      cases closeOffset (rest.drop w) d with
      | none => rfl
      | some k => simp; omega

theorem directPairs_skip (w : Nat) (l : List Nat) (d : Nat) (hw : w ≤ l.length)
    (h : ∀ x ∈ l.take w, x ≠ openBracket ∧ x ≠ closeBracket) :
    directPairs l d = directPairs (l.drop w) d := by
  induction w generalizing l with
  | zero => simp
  | succ w ih =>
    cases l with
    | nil => simp at hw
    | cons b rest =>
      have hb := h b (by simp)
      have hrest := ih rest (by simpa using hw) (fun x hx => h x (by simp [hx]))
      simp only [directPairs, if_neg hb.1, if_neg hb.2, List.drop_succ_cons]
      exact hrest

/-! ## The loop of toSlice against bracket matching -/

theorem toSliceLoop_spec (str : List Nat) (fuel : Nat) :
    ∀ (i : Nat) (ret : List Slice), str.length - i < fuel →
      (∀ k, closeOffset (str.drop i) 0 = some k →
        ∃ cs : List Slice, cs.length = directPairs (str.drop i) 0 ∧
          toSliceLoop fuel str i ret = some (ret ++ cs, true, i + k)) ∧
      (closeOffset (str.drop i) 0 = none →
        ∃ r p, toSliceLoop fuel str i ret = some (r, false, p)) := by
  induction fuel with
  | zero => intro i ret h; omega
  | succ fuel ih =>
    intro i ret hf
    by_cases hi : i < str.length
    · have hdrop : str.drop i = str[i] :: str.drop (i + 1) := List.drop_eq_getElem_cons hi
      obtain ⟨hro, hrc, hw1, hw2, hskip⟩ := DecodeRuneInString_spec str[i] (str.drop (i + 1))
      rw [toSliceLoop, if_pos hi, hdrop]
      simp only
      by_cases hbo : str[i] = openBracket
      · rw [if_pos (hro.mpr hbo)]
        have hnest := ih (i + 1) [] (by omega)
        have hco : closeOffset (str[i] :: str.drop (i + 1)) 0 =
            (closeOffset (str.drop (i + 1)) 1).map (· + 1) := by
          simp only [closeOffset, if_pos hbo]
        have hdp : directPairs (str[i] :: str.drop (i + 1)) 0 =
            1 + directPairs (str.drop (i + 1)) 1 := by
          simp only [directPairs, if_pos hbo]
          simp
        have hdec := closeOffset_decomp (str.drop (i + 1)) 0 0
        have hdd := directPairs_decomp (str.drop (i + 1)) 0
        simp only [Nat.zero_add] at hdec hdd
        rw [hco, hdp, hdec, hdd]
        cases hn : closeOffset (str.drop (i + 1)) 0 with
        | none =>
          obtain ⟨r, p, hr⟩ := hnest.2 hn
          rw [hr]
          refine ⟨fun k hk => ?_, fun _ => ⟨ret, i, by simp⟩⟩
          simp at hk
        | some k1 =>
          obtain ⟨cs1, hcs1, hr⟩ := hnest.1 k1 hn
          rw [hr]
          simp only [List.nil_append, Bool.not_true, Bool.false_eq_true, if_false,
            Option.some_bind]
          have hcont := ih (i + 1 + k1) (ret ++ [Slice.mk cs1]) (by omega)
          have hdd2 : str.drop (i + 1 + k1) = (str.drop (i + 1)).drop k1 := by
            rw [List.drop_drop]
          rw [hdd2] at hcont
          refine ⟨fun k hk => ?_, fun hnone => ?_⟩
          · cases hk2 : closeOffset ((str.drop (i + 1)).drop k1) 0 with
            | none => rw [hk2] at hk; simp at hk
            | some k2 =>
              rw [hk2] at hk
              simp only [Option.map_some', Option.some.injEq] at hk
              obtain ⟨cs2, hcs2, hr2⟩ := hcont.1 k2 hk2
              refine ⟨Slice.mk cs1 :: cs2, ?_, ?_⟩
              · simp only [List.length_cons, hcs2]
                omega
              · rw [hr2]
                simp only [List.append_assoc, List.singleton_append, Option.some.injEq,
                  Prod.mk.injEq, true_and]
                omega
          · cases hk2 : closeOffset ((str.drop (i + 1)).drop k1) 0 with
            | none => exact hcont.2 hk2
            | some k2 => rw [hk2] at hnone; simp at hnone
      · rw [if_neg (fun h => hbo (hro.mp h))]
        by_cases hbc : str[i] = closeBracket
        · rw [if_pos (hrc.mpr hbc)]
          have hco : closeOffset (str[i] :: str.drop (i + 1)) 0 = some 1 := by
            simp only [closeOffset, if_neg hbo, if_pos hbc]
          have hdp : directPairs (str[i] :: str.drop (i + 1)) 0 = 0 := by
            simp only [directPairs, if_neg hbo, if_pos hbc]
          rw [hco, hdp]
          refine ⟨fun k hk => ⟨[], rfl, ?_⟩, fun h => by simp at h⟩
          simp only [Option.some.injEq] at hk
          subst hk
          simp
        · rw [if_neg (fun h => hbc (hrc.mp h))]
          have hall := hskip hbo hbc
          have hcs := closeOffset_skip _ _ 0 hw2 hall
          have hds := directPairs_skip _ _ 0 hw2 hall
          have hcont := ih (i + (DecodeRuneInString (str[i] :: str.drop (i + 1))).2) ret
            (by omega)
          have hdd2 : str.drop (i + (DecodeRuneInString (str[i] :: str.drop (i + 1))).2) =
              (str[i] :: str.drop (i + 1)).drop
                (DecodeRuneInString (str[i] :: str.drop (i + 1))).2 := by
            rw [← hdrop, List.drop_drop]
          rw [hdd2] at hcont
          rw [hcs, hds]
          refine ⟨fun k hk => ?_, fun hnone => ?_⟩
          · cases hk2 : closeOffset ((str[i] :: str.drop (i + 1)).drop
                (DecodeRuneInString (str[i] :: str.drop (i + 1))).2) 0 with
            | none => rw [hk2] at hk; simp at hk
            | some k2 =>
              rw [hk2] at hk
              simp only [Option.map_some', Option.some.injEq] at hk
              obtain ⟨cs, hcs', hr⟩ := hcont.1 k2 hk2
              refine ⟨cs, hcs', ?_⟩
              rw [hr]
              simp only [Option.some.injEq, Prod.mk.injEq, true_and]
              omega
          · cases hk2 : closeOffset ((str[i] :: str.drop (i + 1)).drop
                (DecodeRuneInString (str[i] :: str.drop (i + 1))).2) 0 with
            | none => exact hcont.2 hk2
            | some k2 => rw [hk2] at hnone; simp at hnone
    · have hnil : str.drop i = [] := List.drop_eq_nil_of_le (by omega)
      rw [toSliceLoop, if_neg hi, hnil]
      refine ⟨fun k hk => ?_, fun _ => ⟨ret, str.length, rfl⟩⟩
      simp [closeOffset] at hk

theorem closeOffset_close (l : List Nat) (d k : Nat) (h : closeOffset l d = some k) :
    ∃ j, k = j + 1 ∧ l[j]? = some closeBracket := by
  induction l generalizing d k with
  | nil => simp [closeOffset] at h
  | cons b rest ih =>
    have hrec : ∀ d', (closeOffset rest d').map (· + 1) = some k →
        ∃ j, k = j + 1 ∧ (b :: rest)[j]? = some closeBracket := by
      intro d' hm
      cases hc : closeOffset rest d' with
      | none => rw [hc] at hm; simp at hm
      | some k' =>
        rw [hc] at hm
        simp only [Option.map_some', Option.some.injEq] at hm
        obtain ⟨j, hj, hget⟩ := ih d' k' hc
        exact ⟨j + 1, by omega, by simpa using hget⟩
    simp only [closeOffset] at h
    split at h
    · exact hrec _ h
    · split at h
      · rename_i hbc
        cases d with
        | zero =>
          simp only [Option.some.injEq] at h
          exact ⟨0, by omega, by simp [hbc]⟩
        | succ d' => exact hrec _ h
      · exact hrec _ h

/-! ## C15 -/

/-- C15: for every string and every position `pos` holding `[`, `toSlice`
returns (its loop ends within the fuel given), and ok is true exactly when the `[`
at `pos` has a matching `]` with brackets counted by nesting; in that case the
returned position is one past the matching `]`, the byte there is a `]`, and the
returned slice has one element for each bracket pair opened directly inside. -/
theorem C15_toSlice_matches (str : List Nat) (pos : Nat)
    (_hopen : str[pos]? = some openBracket) :
    ∃ ret ok p, toSlice str pos = some (ret, ok, p) ∧
      (ok = true ↔ ∃ j, matchingClose str pos = some j) ∧
      (∀ j, matchingClose str pos = some j →
        p = j + 1 ∧ str[j]? = some closeBracket ∧
        ret.length = directPairs (str.drop (pos + 1)) 0) := by
  have hspec := toSliceLoop_spec str (str.length + 1) (pos + 1) [] (by omega)
  unfold toSlice matchingClose
  cases hc : closeOffset (str.drop (pos + 1)) 0 with
  | none =>
    obtain ⟨r, p, hr⟩ := hspec.2 hc
    refine ⟨r, false, p, hr, ?_, ?_⟩
    · simp
    · intro j hj
      simp at hj
  | some k =>
    obtain ⟨cs, hcs, hr⟩ := hspec.1 k hc
    obtain ⟨j0, hj0, hget⟩ := closeOffset_close _ _ _ hc
    refine ⟨[] ++ cs, true, pos + 1 + k, hr, ?_, ?_⟩
    · simp
    · intro j hj
      simp only [Option.map_some', Option.some.injEq] at hj
      refine ⟨by omega, ?_, by simpa using hcs⟩
      rw [List.getElem?_drop] at hget
      have : pos + 1 + j0 = j := by omega
      rw [this] at hget
      exact hget

/-- C15 on the string `[a[b][]]x` and on a string with a two-byte rune: the
hypothesis holds, the call returns two elements (no element) with ok and the
position one past the matching bracket, and an unclosed bracket gives ok false. -/
theorem C15_toSlice_matches_witness :
    (bytesOf "[a[b][]]x")[0]? = some openBracket ∧
    (toSlice (bytesOf "[a[b][]]x") 0).map (fun t => (t.1.length, t.2.1, t.2.2)) =
      some (2, true, 8) ∧
    matchingClose (bytesOf "[a[b][]]x") 0 = some 7 ∧
    (toSlice [0x5B, 0xC3, 0xA9, 0x5D] 0).map (fun t => (t.1.length, t.2.1, t.2.2)) =
      some (0, true, 4) ∧
    (toSlice (bytesOf "[a[b]") 0).map (fun t => t.2.1) = some false ∧
    (∃ ret ok p, toSlice (bytesOf "[a[b][]]x") 0 = some (ret, ok, p) ∧
      (ok = true ↔ ∃ j, matchingClose (bytesOf "[a[b][]]x") 0 = some j) ∧
      (∀ j, matchingClose (bytesOf "[a[b][]]x") 0 = some j →
        p = j + 1 ∧ (bytesOf "[a[b][]]x")[j]? = some closeBracket ∧
        ret.length = directPairs ((bytesOf "[a[b][]]x").drop (0 + 1)) 0)) :=
  ⟨by decide, by decide, by decide, by decide, by decide,
   C15_toSlice_matches (bytesOf "[a[b][]]x") 0 (by decide)⟩

end Cheshire
